import Mathlib

/-!
# Elmosyar-back, `media/posts/media/b.cpp`: shift-correlation scoring

A shallow embedding of the single source file of the repository and a
verification of its specification.

Conventions of the embedding.

* `int` in the source is `long long`; every value the program computes on a
  test case is bounded by `2 * n`, where `n` is the length of two vectors held
  in memory, so the integers of `give_input` are modelled by `Int` without
  wrap-around.  The correlators `f` and `g`, over whose arguments two claims
  quantify, are embedded a second time with the range of `long long` checked at
  every operation (`f64`, `g64`): signed overflow is undefined behaviour and
  yields `none`.
* A `std::vector` is a `List`.  Reading or writing a vector outside its bounds
  is undefined behaviour in the source; the embedding makes every access
  checked (`rd`, `wr`, `List.getLast?`) and a computation that would leave the
  bounds yields `none`.  A result `some x` therefore means: every access was in
  range and the value computed is `x`.
* A counted `for` loop whose bounds are not changed by its body is the
  left fold of its body over the index range (`forLoop`).
* The standard input is modelled after tokenisation: the numbers `n`, `m`, the
  list of the symbols read for the reference and the list of the
  `(position, symbol)` pairs read for the overrides; for `main`, the list of
  the test cases, whose length is the number `t` read first.
* The global `n` is a parameter of `f` and `g`, the globals `n` and `m` are
  parameters of `give_input`; in `give_inputG` and `main` the globals `n`, `m`,
  `k` are an explicit state threaded through the test cases.
-/

namespace Elmosyar

/-! ## Vectors and loops -/

/-- Checked read `v[i]` of a vector at a machine integer index. -/
def rd {α : Type} (v : List α) (i : Int) : Option α :=
  if 0 ≤ i then v[i.toNat]? else none

/-- Checked write `v[i] = x`. -/
def wr {α : Type} (v : List α) (i : Int) (x : α) : Option (List α) :=
  if 0 ≤ i ∧ i.toNat < v.length then some (v.set i.toNat x) else none

/-- The loop `for (int i = lo; i < hi; ++i) body`, threading the state `s`. -/
def forLoop {σ : Type} (lo hi : Int) (body : Int → σ → Option σ) (s : σ) : Option σ :=
  (List.range (hi - lo).toNat).foldlM (fun (s : σ) (t : Nat) => body (lo + (t : Int)) s) s

/-- The value of `(int)(x == y)`. -/
def boolToInt (p : Bool) : Int := if p then 1 else 0

/-! ## The shift correlator (`b.cpp`, lines 21-41)

The global `n` is a parameter.  The source declares the vector parameters of
`f` and `g` as `vector<int> &` and calls both on the `vector<char>` of
`give_input`; the two functions only compare elements for equality, so the
element type is left generic here and instantiated at `Char` by `give_input`.
The inner loop condition `j + i < n` is the upper bound `n - i` on `j`.

In `f` and `g` the integers are unbounded; these are the forms `give_input`
calls, with `k = 1` and `0 ≤ idx < n`, where no operation of the source leaves
the range of `long long`.  The forms `f64` and `g64` of the next section carry
the range checks, and agree with `f` and `g` wherever nothing overflows
(`f64_eq_f`, `g64_eq_g`). -/

/-- Forward correlation, `int f(int k, int idx, vector &a, vector &b)`. -/
def f {α : Type} [DecidableEq α] (n k idx : Int) (a b : List α) : Option Int :=
  forLoop 1 (k + 1) (fun i res => do
    -- for (int j = idx; j + i < n; ++j) sum += (int)(b[j] == a[j + i]);
    let sum ← forLoop idx (n - i) (fun j sum => do
      let bj ← rd b j
      let aji ← rd a (j + i)
      pure (sum + boolToInt (decide (bj = aji)))) 0
    pure (max res sum)) 0

/-- Backward correlation, `int g(int k, int idx, vector &a, vector &b)`. -/
def g {α : Type} [DecidableEq α] (n k idx : Int) (a b : List α) : Option Int :=
  forLoop 1 (k + 1) (fun i res => do
    -- for (int j = idx; j < n; ++j) sum += (int)(b[j] == a[j - i]);
    let sum ← forLoop idx n (fun j sum => do
      let bj ← rd b j
      let aji ← rd a (j - i)
      pure (sum + boolToInt (decide (bj = aji)))) 0
    pure (max res sum)) 0

/-! ## The shift correlator on machine integers

The same two functions with the range of `long long` made explicit: every
sum, difference and increment that the source computes is checked against
`[LLONG_MIN, LLONG_MAX]`, and a result outside it (signed overflow, undefined
behaviour in the source) yields `none`, as an access out of bounds does.  The
loop conditions are evaluated as written, the evaluation on which a loop exits
included. -/

/-- The constant `LLONG_MAX`. -/
def MAX64 : Int := 2 ^ 63 - 1

/-- The constant `LLONG_MIN`. -/
def MIN64 : Int := -(2 ^ 63)

/-- The result `x` of an arithmetic operation on `long long`: defined only
inside the range of the type. -/
def chk64 (x : Int) : Option Int :=
  if MIN64 ≤ x ∧ x ≤ MAX64 then some x else none

/-- The loop `for (int i = i0; cond(i); ++i) body` on `long long`, from the
counter value `i` and the state `s`.  The first argument bounds the number of
iterations still allowed; `for64` starts it above the number of values of the
type, so that the increment leaves the range before it is used up. -/
def for64Aux {σ : Type} (cond : Int → Option Bool) (body : Int → σ → Option σ) :
    Nat → Int → σ → Option σ
  | 0, _, _ => none
  | fuel + 1, i, s => do
    let c ← cond i
    if c then do
      let s1 ← body i s
      let i1 ← chk64 (i + 1)
      for64Aux cond body fuel i1 s1
    else
      some s

/-- The loop `for (int i = i0; cond(i); ++i) body` on `long long`. -/
def for64 {σ : Type} (cond : Int → Option Bool) (body : Int → σ → Option σ) (i0 : Int)
    (s : σ) : Option σ :=
  for64Aux cond body (2 ^ 64) i0 s

/-- Forward correlation `f` on `long long`. -/
def f64 {α : Type} [DecidableEq α] (n k idx : Int) (a b : List α) : Option Int :=
  -- for (int i = 1; i <= k; ++i)
  for64 (fun i => some (decide (i ≤ k))) (fun i res => do
    -- for (int j = idx; j + i < n; ++j) sum += (int)(b[j] == a[j + i]);
    let sum ← for64 (fun j => do
        let t ← chk64 (j + i)
        some (decide (t < n))) (fun j sum => do
      let bj ← rd b j
      let t ← chk64 (j + i)
      let aji ← rd a t
      chk64 (sum + boolToInt (decide (bj = aji)))) idx 0
    pure (max res sum)) 1 0

/-- Backward correlation `g` on `long long`. -/
def g64 {α : Type} [DecidableEq α] (n k idx : Int) (a b : List α) : Option Int :=
  -- for (int i = 1; i <= k; ++i)
  for64 (fun i => some (decide (i ≤ k))) (fun i res => do
    -- for (int j = idx; j < n; ++j) sum += (int)(b[j] == a[j - i]);
    let sum ← for64 (fun j => some (decide (j < n))) (fun j sum => do
      let bj ← rd b j
      let t ← chk64 (j - i)
      let aji ← rd a t
      chk64 (sum + boolToInt (decide (bj = aji)))) idx 0
    pure (max res sum)) 1 0

/-! ## `give_input` (`b.cpp`, lines 43-109) -/

/-- The sentinel `'0'` with which both vectors are initialised and which marks
an unknown position of the target. -/
def unknown : Char := '0'

/-- Lines 46-48: `vector<char> a(n, '0')` and the loop `cin >> a[i]`, reading
the `i`-th symbol of the input. -/
def readA (n : Int) (toks : List Char) : Option (List Char) :=
  forLoop 0 n (fun i a => do
    let c ← rd toks i
    wr a i c) (List.replicate n.toNat unknown)

/-- Lines 46, 49-54: `vector<char> b(n, '0')` and the loop
`cin >> num >> c; b[num - 1] = c`, reading the `i`-th override of the input. -/
def readB (n m : Int) (ovr : List (Int × Char)) : Option (List Char) :=
  forLoop 0 m (fun i b => do
    let p ← rd ovr i
    wr b (p.1 - 1) p.2) (List.replicate n.toNat unknown)

/-- The variables of the first scan: the flag `bg`, the block list `v` (each
block `{start, length}` a pair) and the vector `score`. -/
structure Scan where
  bg : Bool
  v : List (Int × Int)
  score : List Int
deriving DecidableEq

/-- The statement `v.back()[1] += 1`. -/
def bumpBack (v : List (Int × Int)) : Option (List (Int × Int)) :=
  match v.getLast? with
  | some blk => some (v.dropLast ++ [(blk.1, blk.2 + 1)])
  | none => none

/-- Lines 60-68: the segmentation branch of the scan at position `i`. -/
def segment (bi : Char) (i : Int) (s : Scan) : Option Scan :=
  if s.bg = true ∧ bi = unknown then
    some { s with v := s.v ++ [(i, 1)] }
  else if s.bg = false ∧ bi = unknown then
    (bumpBack s.v).map (fun w => { s with v := w })
  else if bi ≠ unknown then
    some { s with bg := true }
  else
    some s

/-- Lines 69-74: the score branch of the scan at position `i`. -/
def pushScore (bi ai : Char) (i : Int) (s : Scan) : Option Scan :=
  if i ≠ 0 then do
    let last ← s.score.getLast?
    some { s with score := s.score ++ [last + boolToInt (decide (bi = ai))] }
  else
    some { s with score := s.score ++ [boolToInt (decide (bi = ai))] }

/-- Lines 59-75: one iteration of the first scan. -/
def scanStep (a b : List Char) (i : Int) (s : Scan) : Option Scan := do
  let bi ← rd b i
  let s1 ← segment bi i s
  let ai ← rd a i
  pushScore bi ai i s1

/-- Lines 55-75: the first scan, from `bg = true` and empty `v`, `score`. -/
def scan (n : Int) (a b : List Char) : Option Scan :=
  forLoop 0 n (scanStep a b) { bg := true, v := [], score := [] }

/-- The operand `(i ? score[i - 1] : 0)`. -/
def pre (score : List Int) (i : Int) : Option Int :=
  if i ≠ 0 then rd score (i - 1) else some 0

/-- Lines 78-83: one iteration of the trailing-run loop. -/
def trailingStep (n : Int) (a b : List Char) (v : List (Int × Int)) (score : List Int)
    (i : Int) (ans : Int) : Option Int := do
  let bi ← rd b i
  if bi ≠ unknown then do
    let blk ← v.getLast?
    let calc_ ← f n blk.2 i a b
    let p ← pre score i
    some (max ans (p + calc_))
  else
    some ans

/-- Lines 77-84: the trailing-run scenario, updating `ans`. -/
def trailing (n : Int) (a b : List Char) (v : List (Int × Int)) (score : List Int)
    (ans : Int) : Option Int := do
  let bl ← rd b (n - 1)
  if bl = unknown then forLoop 0 n (trailingStep n a b v score) ans else some ans

/-- The variables of the second scan: the flag `bg`, the block counter `cnt`
and the running answer `ans`. -/
structure Walk where
  bg : Bool
  cnt : Int
  ans : Int
deriving DecidableEq

/-- Lines 92-105: one iteration of the per-block loop. -/
def walkStep (n : Int) (a b : List Char) (v : List (Int × Int)) (score : List Int)
    (i : Int) (s : Walk) : Option Walk := do
  let bi ← rd b i
  if s.bg = true ∧ bi = unknown then do
    let blk ← rd v s.cnt
    if blk.2 + i ≥ n - 1 then
      -- ++cnt; continue;
      some { s with cnt := s.cnt + 1 }
    else do
      let calc_ ← g n blk.2 (i + blk.2) a b
      let ans ← if blk.2 + i < n - 1 then do
                  let p ← pre score i
                  some (max s.ans (p + calc_))
                else some s.ans
      some { s with cnt := s.cnt + 1, ans := ans }
  else if s.bg = false ∧ bi = unknown then
    some s
  else if bi ≠ unknown then
    some { s with bg := true }
  else
    some s

/-- Lines 89-106: the per-block scenario, updating `ans`. -/
def perBlock (n : Int) (a b : List Char) (v : List (Int × Int)) (score : List Int)
    (ans : Int) : Option Int :=
  (forLoop 0 n (walkStep n a b v score) { bg := true, cnt := 0, ans := ans }).map Walk.ans

/-- The procedure `give_input` on one test case: the value it prints. -/
def give_input (n m : Int) (toks : List Char) (ovr : List (Int × Char)) : Option Int := do
  let a ← readA n toks
  let b ← readB n m ovr
  let s ← scan n a b
  let ans ← rd s.score (n - 1)
  let ans ← trailing n a b s.v s.score ans
  perBlock n a b s.v s.score ans

/-! ## The globals, the hooks and `main` (`b.cpp`, lines 11-19, 111-131) -/

/-- The globals `int n, m, k;` of line 11. -/
structure Globals where
  n : Int
  m : Int
  k : Int
deriving DecidableEq

/-- One test case on the input, after tokenisation: the numbers `n` and `m`,
the reference symbols and the overrides. -/
structure TestCase where
  n : Int
  m : Int
  toks : List Char
  ovr : List (Int × Char)

/-- The hook `void ready()`, whose body is `return`. -/
def ready (gl : Globals) : Globals := gl

/-- The hook `void preprocess()`, whose body is `return`. -/
def preprocess (gl : Globals) : Globals := gl

/-- The hook `void process()`, whose body is `return`. -/
def process (gl : Globals) : Globals := gl

/-- The hook `void get_output()`, whose body is `return`. -/
def get_output (gl : Globals) : Globals := gl

/-- The procedure `give_input` as it acts on the globals: `cin >> n >> m`
stores into the globals `n` and `m` (the `k` it declares is a local, the global
`k` is left alone), and the rest of the body, `f` and `g` included, reads `n`
and `m` from there.  The result is the value printed and the globals left
behind. -/
def give_inputG (gl : Globals) (tc : TestCase) : Option (Int × Globals) :=
  let gl1 : Globals := { gl with n := tc.n, m := tc.m }
  (give_input gl1.n gl1.m tc.toks tc.ovr).map (fun ans => (ans, gl1))

/-- The loop `while (t--)` of `main` over the test cases of the input, `t`
being their number: the values printed, in order, and the final globals. -/
def mainLoop : Globals → List TestCase → Option (List Int × Globals)
  | gl, [] => some ([], gl)
  | gl, tc :: rest => do
    let r ← give_inputG gl tc
    let gl1 := ready (get_output (process r.2))
    let out ← mainLoop gl1 rest
    some (r.1 :: out.1, out.2)

/-- The program: `main` from zero-initialised globals, after `preprocess()`;
the list of the values printed. -/
def main (tcs : List TestCase) : Option (List Int) :=
  (mainLoop (preprocess { n := 0, m := 0, k := 0 }) tcs).map Prod.fst

/-! ## Specification-side notions

The definitions below are not part of the program.  They word the quantities
the specification speaks of (`fSpec`, `gSpec`, `lastOverride`, `storedAgree`,
`concreteAgree`, `WellFormed`, `candidates`, `trailingRun`) and the closed
forms that the stages of `give_input` are proved to compute (`target`,
`blocksOf`, `scoresOf`, `answer`). -/

/-- Position `j` of `b` and position `j'` of `a` both exist and hold the same
symbol. -/
def agree {α : Type} [DecidableEq α] (b : List α) (j : Int) (a : List α) (j' : Int) : Bool :=
  (rd b j).isSome && decide (rd b j = rd a j')

/-- Number of positions `j` in `[idx, n - i)` with `B[j] = A[j + i]`. -/
def fwdCount {α : Type} [DecidableEq α] (n i idx : Int) (a b : List α) : Nat :=
  ((Finset.Ico idx (n - i)).filter (fun j => agree b j a (j + i) = true)).card

/-- Number of positions `j` in `[idx, n)` with `B[j] = A[j - i]`. -/
def bwdCount {α : Type} [DecidableEq α] (n i idx : Int) (a b : List α) : Nat :=
  ((Finset.Ico idx n).filter (fun j => agree b j a (j - i) = true)).card

/-- The forward correlation as the specification words it: the maximum over
the shifts `i` in `[1, k]` of the forward count, `0` when there is no shift. -/
def fSpec {α : Type} [DecidableEq α] (n k idx : Int) (a b : List α) : Nat :=
  (Finset.Icc 1 k).sup (fun i => fwdCount n i idx a b)

/-- The backward correlation as the specification words it. -/
def gSpec {α : Type} [DecidableEq α] (n k idx : Int) (a b : List α) : Nat :=
  (Finset.Icc 1 k).sup (fun i => bwdCount n i idx a b)

/-- The symbol of the last override, in input order, whose position is `p`. -/
def lastOverride (ovr : List (Int × Char)) (p : Int) : Option Char :=
  ((ovr.filter (fun o => decide (o.1 = p))).getLast?).map Prod.snd

/-- A test case as the program expects it: `n ≥ 1`, `n` reference symbols,
`m` overrides, every override position in `[1, n]`. -/
def WellFormed (n m : Int) (toks : List Char) (ovr : List (Int × Char)) : Prop :=
  1 ≤ n ∧ (toks.length : Int) = n ∧ (ovr.length : Int) = m ∧ ∀ o ∈ ovr, 1 ≤ o.1 ∧ o.1 ≤ n

instance (n m : Int) (toks : List Char) (ovr : List (Int × Char)) :
    Decidable (WellFormed n m toks ovr) :=
  inferInstanceAs (Decidable (1 ≤ n ∧ (toks.length : Int) = n ∧ (ovr.length : Int) = m ∧
    ∀ o ∈ ovr, 1 ≤ o.1 ∧ o.1 ≤ n))

/-- The target sequence of a test case, position by position. -/
def target (n : Int) (ovr : List (Int × Char)) : List Char :=
  (List.range n.toNat).map (fun (q : Nat) => (lastOverride ovr ((q : Int) + 1)).getD unknown)

/-- Number of positions `j` in `[0, t)` whose stored symbols `B[j]` and `A[j]`
are equal. -/
def agreeBelow (a b : List Char) (t : Int) : Nat :=
  ((Finset.Ico 0 t).filter (fun j => agree b j a j = true)).card

/-- The positions below `t` at which `b` holds the sentinel, in increasing
order. -/
def unknownPos (b : List Char) (t : Nat) : List Nat :=
  (List.range t).filter (fun j => decide (b[j]? = some unknown))

/-- One block `(j, 1)` for each position below `t` holding the sentinel. -/
def blocksOf (b : List Char) (t : Nat) : List (Int × Int) :=
  (unknownPos b t).map (fun (j : Nat) => ((j : Int), (1 : Int)))

/-- The prefix scores of the first `t` positions. -/
def scoresOf (a b : List Char) (t : Nat) : List Int :=
  (List.range t).map (fun (j : Nat) => ((agreeBelow a b ((j : Int) + 1) : Nat) : Int))

/-- Contribution of position `i` to the trailing-run scenario: nothing at an
unknown position, `pre(i)` plus the forward correlation with shift bound `1` at
a concrete one. -/
def trailTerm (n : Int) (a b : List Char) (i : Int) : Nat :=
  if rd b i = some unknown then 0 else agreeBelow a b i + fSpec n 1 i a b

/-- Best contribution of the trailing-run scenario. -/
def trailSup (n : Int) (a b : List Char) : Nat :=
  if rd b (n - 1) = some unknown then (Finset.Ico 0 n).sup (trailTerm n a b) else 0

/-- Contribution of position `i` to the per-block scenario: `pre(i)` plus the
backward correlation with shift bound `1` at an unknown position with
`1 + i < n - 1`, nothing elsewhere. -/
def walkTerm (n : Int) (a b : List Char) (i : Int) : Nat :=
  if rd b i = some unknown ∧ 1 + i < n - 1 then agreeBelow a b i + gSpec n 1 (i + 1) a b else 0

/-- Best contribution of the per-block scenario. -/
def walkSup (n : Int) (a b : List Char) : Nat :=
  (Finset.Ico 0 n).sup (walkTerm n a b)

/-- The value `give_input` prints, in closed form. -/
def answer (n : Int) (a b : List Char) : Nat :=
  max (max (agreeBelow a b n) (trailSup n a b)) (walkSup n a b)

/-- Number of positions `j ≤ i` at which the stored symbols `B[j]` and `A[j]`
are equal, the sentinel being a symbol like any other. -/
def storedAgree (a b : List Char) (i : Int) : Nat :=
  ((Finset.Icc 0 i).filter (fun j => agree b j a j = true)).card

/-- Number of positions `j ≤ i` at which `B[j]` is concrete (not the sentinel)
and `B[j] = A[j]`, as the specification defines the prefix score. -/
def concreteAgree (a b : List Char) (i : Int) : Nat :=
  ((Finset.Icc 0 i).filter (fun j => rd b j ≠ some unknown ∧ agree b j a j = true)).card

/-- A well-formed test case. -/
def TestCase.WellFormed (tc : TestCase) : Prop :=
  Elmosyar.WellFormed tc.n tc.m tc.toks tc.ovr

instance (tc : TestCase) : Decidable tc.WellFormed :=
  inferInstanceAs (Decidable (Elmosyar.WellFormed tc.n tc.m tc.toks tc.ovr))

/-- Number of positions `j` in `[i, n - 1)` with `B[j] = A[j + 1]`. -/
def fwd1 (n : Int) (a b : List Char) (i : Int) : Nat :=
  ((Finset.Ico i (n - 1)).filter (fun j => agree b j a (j + 1) = true)).card

/-- Number of positions `j` in `[i + 1, n)` with `B[j] = A[j - 1]`. -/
def bwd1 (n : Int) (a b : List Char) (i : Int) : Nat :=
  ((Finset.Ico (i + 1) n).filter (fun j => agree b j a (j - 1) = true)).card

/-- The quantity `pre(i)`: `score[i - 1]` for `i > 0` and `0` for `i = 0`. -/
def preOf (score : List Int) (i : Int) : Int :=
  if 0 < i then (rd score (i - 1)).getD 0 else 0

/-- The values among which the answer is the maximum: `score[n - 1]`; when
`B[n - 1]` is unknown, `pre(i)` plus the shift-one forward count for every
concrete position `i`; `pre(i)` plus the shift-one backward count for every
unknown position `i ≤ n - 3`. -/
def candidates (n : Int) (a b : List Char) (score : List Int) : Finset Int :=
  {(rd score (n - 1)).getD 0}
    ∪ (if rd b (n - 1) = some unknown then
        ((Finset.Ico 0 n).filter (fun i => rd b i ≠ some unknown)).image
          (fun i => preOf score i + (fwd1 n a b i : Int))
       else ∅)
    ∪ ((Finset.Icc 0 (n - 3)).filter (fun i => rd b i = some unknown)).image
        (fun i => preOf score i + (bwd1 n a b i : Int))

/-- Length of the maximal run of unknown positions that ends the target. -/
def trailingRun (b : List Char) : Int :=
  ((b.reverse.takeWhile (fun c => decide (c = unknown))).length : Int)

/-! ## Reasoning about vectors and loops -/

theorem rd_natCast {α : Type} (v : List α) (t : Nat) : rd v (t : Int) = v[t]? := by
  simp [rd]

theorem rd_eq_some_iff {α : Type} (v : List α) (i : Int) (x : α) :
    rd v i = some x ↔ 0 ≤ i ∧ v[i.toNat]? = some x := by
  unfold rd
  split <;> simp [*]

theorem rd_isSome {α : Type} (v : List α) (i : Int) (h0 : 0 ≤ i) (h1 : i < v.length) :
    ∃ x, rd v i = some x := by
  have h : i.toNat < v.length := by omega
  exact ⟨v[i.toNat], by simp [rd, h0, List.getElem?_eq_getElem h]⟩

theorem rd_length_lt {α : Type} (v : List α) (i : Int) (x : α) (h : rd v i = some x) :
    0 ≤ i ∧ i < v.length := by
  rw [rd_eq_some_iff] at h
  obtain ⟨h0, h1⟩ := h
  have := (List.getElem?_eq_some_iff.mp h1).1
  omega

/-- Hoare rule for `forLoop`: an invariant indexed by the number of iterations
done, established initially and preserved by every iteration, holds of the
final state, and the loop does not fail. -/
theorem forLoop_inv {σ : Type} (Inv : Nat → σ → Prop) (lo hi : Int)
    (body : Int → σ → Option σ) (s0 : σ) (h0 : Inv 0 s0)
    (hstep : ∀ (t : Nat) (s : σ), (t : Int) < hi - lo → Inv t s →
      ∃ s', body (lo + (t : Int)) s = some s' ∧ Inv (t + 1) s') :
    ∃ s, forLoop lo hi body s0 = some s ∧ Inv (hi - lo).toNat s := by
  unfold forLoop
  have key : ∀ len : Nat, (len : Int) ≤ max (hi - lo) 0 →
      ∃ s, (List.range len).foldlM (fun (s : σ) (t : Nat) => body (lo + (t : Int)) s) s0
        = some s ∧ Inv len s := by
    intro len
    induction len with
    | zero => intro _; exact ⟨s0, by simp, h0⟩
    | succ len ih =>
      intro hlen
      obtain ⟨s, hs, hI⟩ := ih (by omega)
      obtain ⟨s', hs', hI'⟩ := hstep len s (by omega) hI
      refine ⟨s', ?_, hI'⟩
      rw [List.range_succ, List.foldlM_append, hs]
      simp [hs']
  exact key _ (by omega)

theorem Ico_succ_insert (lo : Int) (t : Nat) :
    Finset.Ico lo (lo + ((t + 1 : Nat) : Int)) = insert (lo + (t : Int)) (Finset.Ico lo (lo + t)) := by
  ext x; simp; omega

theorem Ico_toNat (lo hi : Int) :
    Finset.Ico lo (lo + ((hi - lo).toNat : Int)) = Finset.Ico lo hi := by
  by_cases hle : lo ≤ hi
  · congr 1; omega
  · rw [Finset.Ico_eq_empty (by omega), Finset.Ico_eq_empty (by omega)]

/-- A loop that adds `(int)(p j)` at every index counts the indices of its
range satisfying `p`. -/
theorem forLoop_count (lo hi : Int) (body : Int → Int → Option Int) (p : Int → Bool)
    (h : ∀ j s, lo ≤ j → j < hi → body j s = some (s + boolToInt (p j))) (s0 : Int) :
    forLoop lo hi body s0
      = some (s0 + (((Finset.Ico lo hi).filter (fun j => p j = true)).card : Int)) := by
  obtain ⟨s, hs, hI⟩ := forLoop_inv
    (fun t s => s = s0 + (((Finset.Ico lo (lo + t)).filter (fun j => p j = true)).card : Int))
    lo hi body s0 (by simp) (by
      intro t s ht hI
      refine ⟨_, h (lo + t) s (by omega) (by omega), ?_⟩
      show _ = s0 + (((Finset.Ico lo (lo + ((t + 1 : Nat) : Int))).filter
        (fun j => p j = true)).card : Int)
      rw [hI, Ico_succ_insert, Finset.filter_insert]
      by_cases hp : p (lo + t) = true
      · rw [if_pos hp, Finset.card_insert_of_not_mem (by simp)]
        simp [boolToInt, hp]; ring
      · rw [if_neg hp]
        simp [boolToInt, hp])
  rw [hs, hI, Ico_toNat]

/-- A loop that replaces its state by the maximum with a natural number
`c i` at every index computes the supremum of `c` over its range. -/
theorem forLoop_sup (lo hi : Int) (body : Int → Int → Option Int) (c : Int → Nat)
    (h : ∀ i (r : Nat), lo ≤ i → i < hi → body i (r : Int) = some ((max r (c i) : Nat) : Int))
    (r0 : Nat) :
    forLoop lo hi body (r0 : Int) = some ((max r0 ((Finset.Ico lo hi).sup c) : Nat) : Int) := by
  obtain ⟨s, hs, hI⟩ := forLoop_inv
    (fun t s => s = ((max r0 ((Finset.Ico lo (lo + t)).sup c) : Nat) : Int))
    lo hi body (r0 : Int) (by simp) (by
      intro t s ht hI
      refine ⟨_, hI ▸ h (lo + t) _ (by omega) (by omega), ?_⟩
      show _ = ((max r0 ((Finset.Ico lo (lo + ((t + 1 : Nat) : Int))).sup c) : Nat) : Int)
      rw [Ico_succ_insert, Finset.sup_insert]
      congr 1
      omega)
  rw [hs, hI, Ico_toNat]

/-! ## The shift correlator meets its specification -/

theorem cmp_step {α : Type} [DecidableEq α] (a b : List α) (j j' : Int)
    (hb : 0 ≤ j) (hb' : j < b.length) (ha : 0 ≤ j') (ha' : j' < a.length) (s : Int) :
    (do let bj ← rd b j
        let aj ← rd a j'
        pure (s + boolToInt (decide (bj = aj)))) = some (s + boolToInt (agree b j a j')) := by
  obtain ⟨x, hx⟩ := rd_isSome b j hb hb'
  obtain ⟨y, hy⟩ := rd_isSome a j' ha ha'
  simp [agree, hx, hy]

theorem Ico_one_succ (k : Int) : Finset.Ico 1 (k + 1) = Finset.Icc 1 k := by
  ext x; simp; omega

theorem f_eq_fSpec {α : Type} [DecidableEq α] (n k idx : Int) (a b : List α)
    (ha : (a.length : Int) = n) (hb : (b.length : Int) = n) (hidx : 0 ≤ idx) :
    f n k idx a b = some ((fSpec n k idx a b : Nat) : Int) := by
  unfold f
  refine Eq.trans (forLoop_sup 1 (k + 1) _ (fun i => fwdCount n i idx a b) ?_ 0) ?_
  · intro i r h1 _
    simp only []
    rw [forLoop_count idx (n - i) _ (fun j => agree b j a (j + i)) (by
      intro j s hj1 hj2
      exact cmp_step a b j (j + i) (by omega) (by omega) (by omega) (by omega) s)]
    simp [fwdCount]
  · rw [Ico_one_succ]
    simp [fSpec]

theorem g_eq_gSpec {α : Type} [DecidableEq α] (n k idx : Int) (a b : List α)
    (ha : (a.length : Int) = n) (hb : (b.length : Int) = n) (hidx : k ≤ idx) :
    g n k idx a b = some ((gSpec n k idx a b : Nat) : Int) := by
  unfold g
  refine Eq.trans (forLoop_sup 1 (k + 1) _ (fun i => bwdCount n i idx a b) ?_ 0) ?_
  · intro i r h1 h2
    simp only []
    rw [forLoop_count idx n _ (fun j => agree b j a (j - i)) (by
      intro j s hj1 hj2
      exact cmp_step a b j (j - i) (by omega) (by omega) (by omega) (by omega) s)]
    simp [bwdCount]
  · rw [Ico_one_succ]
    simp [gSpec]

theorem fwdCount_le {α : Type} [DecidableEq α] (n i idx : Int) (a b : List α) (hi : 1 ≤ i) :
    (fwdCount n i idx a b : Int) ≤ max (n - 1 - idx) 0 := by
  unfold fwdCount
  have h1 := Finset.card_filter_le (Finset.Ico idx (n - i)) (fun j => agree b j a (j + i) = true)
  have h2 : (Finset.Ico idx (n - i)).card = (n - i - idx).toNat := by simp
  omega

theorem bwdCount_le {α : Type} [DecidableEq α] (n i idx : Int) (a b : List α) :
    (bwdCount n i idx a b : Int) ≤ max (n - idx) 0 := by
  unfold bwdCount
  have h1 := Finset.card_filter_le (Finset.Ico idx n) (fun j => agree b j a (j - i) = true)
  have h2 : (Finset.Ico idx n).card = (n - idx).toNat := by simp
  omega

theorem fSpec_le {α : Type} [DecidableEq α] (n k idx : Int) (a b : List α) :
    (fSpec n k idx a b : Int) ≤ max (n - 1 - idx) 0 := by
  have h : fSpec n k idx a b ≤ (max (n - 1 - idx) 0).toNat := by
    unfold fSpec
    apply Finset.sup_le
    intro i hi
    have := fwdCount_le n i idx a b (by simpa using (Finset.mem_Icc.mp hi).1)
    omega
  omega

theorem gSpec_le {α : Type} [DecidableEq α] (n k idx : Int) (a b : List α) :
    (gSpec n k idx a b : Int) ≤ max (n - idx) 0 := by
  have h : gSpec n k idx a b ≤ (max (n - idx) 0).toNat := by
    unfold gSpec
    apply Finset.sup_le
    intro i hi
    have := bwdCount_le n i idx a b
    omega
  omega

/-! ## The sequence builder -/

theorem rd_set_self {α : Type} (v : List α) (i : Int) (x : α) (h0 : 0 ≤ i)
    (h1 : i < v.length) : rd (v.set i.toNat x) i = some x := by
  have h : i.toNat < v.length := by omega
  simp [rd, h0, h]

theorem rd_set_ne {α : Type} (v : List α) (i j : Int) (x : α) (h0 : 0 ≤ i) (hne : i ≠ j) :
    rd (v.set i.toNat x) j = rd v j := by
  unfold rd
  split
  · rw [List.getElem?_set_ne (by omega)]
  · rfl

theorem wr_eq {α : Type} (v : List α) (i : Int) (x : α) (h0 : 0 ≤ i) (h1 : i < v.length) :
    wr v i x = some (v.set i.toNat x) := by
  have h : i.toNat < v.length := by omega
  simp [wr, h0, h]

theorem readA_eq (n : Int) (toks : List Char) (hn : 0 ≤ n) (hlen : (toks.length : Int) = n) :
    readA n toks = some toks := by
  unfold readA
  obtain ⟨a, ha, hlenA, hI⟩ := forLoop_inv
    (fun t (a : List Char) => (a.length : Int) = n ∧ ∀ j : Nat, j < t → a[j]? = toks[j]?)
    0 n (fun i a => do
      let c ← rd toks i
      wr a i c) (List.replicate n.toNat unknown) (by simp; omega) (by
      intro t a ht ⟨hlenA, hI⟩
      obtain ⟨c, hc⟩ := rd_isSome toks (0 + (t : Int)) (by omega) (by omega)
      refine ⟨a.set (0 + (t : Int)).toNat c, ?_, by simp; omega, ?_⟩
      · simp only [hc, Option.some_bind, Option.bind_eq_bind]
        exact wr_eq a _ c (by omega) (by omega)
      · intro j hj
        have hc' : toks[t]? = some c := by
          have := (rd_eq_some_iff _ _ _).mp hc
          simpa using this.2
        simp only [zero_add, Int.toNat_ofNat]
        by_cases hjt : j = t
        · subst hjt
          rw [List.getElem?_set_self (by omega), hc']
        · rw [List.getElem?_set_ne (by omega)]
          exact hI j (by omega))
  rw [ha]
  congr 1
  apply List.ext_getElem?
  intro j
  by_cases hj : j < (n - 0).toNat
  · exact hI j hj
  · rw [List.getElem?_eq_none (by omega), List.getElem?_eq_none (by omega)]

theorem lastOverride_concat (l : List (Int × Char)) (o : Int × Char) (p : Int) :
    lastOverride (l ++ [o]) p = if o.1 = p then some o.2 else lastOverride l p := by
  unfold lastOverride
  by_cases h : o.1 = p
  · simp [List.filter_append, h, List.getLast?_concat]
  · simp [List.filter_append, h]

theorem readB_inv (n m : Int) (ovr : List (Int × Char)) (hn : 0 ≤ n)
    (hlen : (ovr.length : Int) = m) (hpos : ∀ o ∈ ovr, 1 ≤ o.1 ∧ o.1 ≤ n) :
    ∃ b, readB n m ovr = some b ∧ (b.length : Int) = n ∧
      ∀ q : Nat, (q : Int) < n → b[q]? = some ((lastOverride ovr ((q : Int) + 1)).getD unknown) := by
  unfold readB
  obtain ⟨b, hb, hlenB, hI⟩ := forLoop_inv
    (fun t (b : List Char) => (b.length : Int) = n ∧ ∀ q : Nat, (q : Int) < n →
      b[q]? = some ((lastOverride (ovr.take t) ((q : Int) + 1)).getD unknown))
    0 m (fun i b => do
      let p ← rd ovr i
      wr b (p.1 - 1) p.2) (List.replicate n.toNat unknown) (by
      refine ⟨by simp; omega, ?_⟩
      intro q hq
      rw [List.getElem?_replicate_of_lt (by omega)]
      simp [lastOverride]) (by
      intro t b ht ⟨hlenB, hI⟩
      have htl : t < ovr.length := by omega
      have ho : rd ovr (0 + (t : Int)) = some ovr[t] := by
        simp [rd, List.getElem?_eq_getElem htl]
      have hp := hpos ovr[t] (List.getElem_mem htl)
      refine ⟨b.set (ovr[t].1 - 1).toNat ovr[t].2, ?_, by simp; omega, ?_⟩
      · simp only [ho, Option.some_bind, Option.bind_eq_bind]
        exact wr_eq b _ _ (by omega) (by omega)
      · intro q hq
        rw [← List.take_concat_get' ovr t htl, lastOverride_concat]
        by_cases hqp : ovr[t].1 = (q : Int) + 1
        · rw [if_pos hqp]
          have : (ovr[t].1 - 1).toNat = q := by omega
          rw [this, List.getElem?_set_self (by omega)]
          rfl
        · rw [if_neg hqp, List.getElem?_set_ne (by omega)]
          exact hI q hq)
  refine ⟨b, hb, hlenB, ?_⟩
  intro q hq
  have := hI q hq
  rwa [List.take_of_length_le (by omega)] at this

theorem readB_eq (n m : Int) (ovr : List (Int × Char)) (hn : 0 ≤ n)
    (hlen : (ovr.length : Int) = m) (hpos : ∀ o ∈ ovr, 1 ≤ o.1 ∧ o.1 ≤ n) :
    readB n m ovr = some (target n ovr) := by
  obtain ⟨b, hb, hlenB, hI⟩ := readB_inv n m ovr hn hlen hpos
  rw [hb]
  congr 1
  apply List.ext_getElem?
  intro q
  unfold target
  by_cases hq : (q : Int) < n
  · rw [hI q hq, List.getElem?_map, List.getElem?_range (by omega)]
    rfl
  · rw [List.getElem?_eq_none (by omega), List.getElem?_eq_none (by simp; omega)]

theorem target_length (n : Int) (ovr : List (Int × Char)) :
    (target n ovr).length = n.toNat := by
  simp [target]

theorem target_getElem? (n : Int) (ovr : List (Int × Char)) (q : Nat) (hq : (q : Int) < n) :
    (target n ovr)[q]? = some ((lastOverride ovr ((q : Int) + 1)).getD unknown) := by
  unfold target
  rw [List.getElem?_map, List.getElem?_range (by omega)]
  rfl

/-! ## The first scan: prefix scores and blocks -/

theorem agreeBelow_zero (a b : List Char) : agreeBelow a b 0 = 0 := by
  simp [agreeBelow]

theorem agreeBelow_succ (a b : List Char) (t : Nat) :
    agreeBelow a b ((t : Int) + 1)
      = agreeBelow a b t + (if agree b t a t = true then 1 else 0) := by
  unfold agreeBelow
  have hins : Finset.Ico (0 : Int) ((t : Int) + 1) = insert (t : Int) (Finset.Ico 0 (t : Int)) := by
    ext x; simp; omega
  rw [hins, Finset.filter_insert]
  by_cases hp : agree b t a t = true
  · rw [if_pos hp, if_pos hp, Finset.card_insert_of_not_mem (by simp)]
  · rw [if_neg hp, if_neg hp]; rfl

theorem agreeBelow_le (a b : List Char) (t : Int) : (agreeBelow a b t : Int) ≤ max t 0 := by
  unfold agreeBelow
  have h1 := Finset.card_filter_le (Finset.Ico 0 t) (fun j => agree b j a j = true)
  have h2 : (Finset.Ico 0 t).card = t.toNat := by simp
  omega

theorem agree_of_rd {α : Type} [DecidableEq α] (a b : List α) (j j' : Int) (x y : α)
    (hx : rd b j = some x) (hy : rd a j' = some y) : agree b j a j' = decide (x = y) := by
  simp [agree, hx, hy]

theorem unknownPos_succ (b : List Char) (t : Nat) :
    unknownPos b (t + 1)
      = unknownPos b t ++ (if b[t]? = some unknown then [t] else []) := by
  unfold unknownPos
  rw [List.range_succ, List.filter_append]
  by_cases h : b[t]? = some unknown <;> simp [h]

theorem scoresOf_succ (a b : List Char) (t : Nat) :
    scoresOf a b (t + 1) = scoresOf a b t ++ [((agreeBelow a b ((t : Int) + 1) : Nat) : Int)] := by
  simp [scoresOf, List.range_succ]

theorem scoresOf_length (a b : List Char) (t : Nat) : (scoresOf a b t).length = t := by
  simp [scoresOf]

theorem scoresOf_getElem? (a b : List Char) (t j : Nat) (hj : j < t) :
    (scoresOf a b t)[j]? = some ((agreeBelow a b ((j : Int) + 1) : Nat) : Int) := by
  unfold scoresOf
  rw [List.getElem?_map, List.getElem?_range hj]
  rfl

theorem scanStep_eq (a b : List Char) (t : Nat) (ha : t < a.length) (hb : t < b.length) :
    scanStep a b (0 + (t : Int)) { bg := true, v := blocksOf b t, score := scoresOf a b t }
      = some { bg := true, v := blocksOf b (t + 1), score := scoresOf a b (t + 1) } := by
  have hbt : rd b (0 + (t : Int)) = some b[t] := by
    simp [rd, List.getElem?_eq_getElem hb]
  have hat : rd a (0 + (t : Int)) = some a[t] := by
    simp [rd, List.getElem?_eq_getElem ha]
  have hag : agree b t a t = decide (b[t] = a[t]) :=
    agree_of_rd a b t t _ _ (by simpa using hbt) (by simpa using hat)
  have hseg : segment b[t] (0 + (t : Int)) { bg := true, v := blocksOf b t, score := scoresOf a b t }
      = some { bg := true, v := blocksOf b (t + 1), score := scoresOf a b t } := by
    unfold segment blocksOf
    rw [unknownPos_succ]
    by_cases h : b[t] = unknown
    · simp [h, List.getElem?_eq_getElem hb]
    · simp [h, List.getElem?_eq_getElem hb]
  have hpush : pushScore b[t] a[t] (0 + (t : Int))
      { bg := true, v := blocksOf b (t + 1), score := scoresOf a b t }
      = some { bg := true, v := blocksOf b (t + 1), score := scoresOf a b (t + 1) } := by
    unfold pushScore
    cases t with
    | zero =>
      have h1 := agreeBelow_succ a b 0
      simp only [Nat.cast_zero, zero_add, agreeBelow_zero] at h1
      simp only [Nat.cast_zero] at hag
      have h2 : scoresOf a b (0 + 1) = [((agreeBelow a b 1 : Nat) : Int)] := by
        simp [scoresOf, List.range_succ]
      rw [h2, h1, hag]
      by_cases h : b[0] = a[0] <;> simp [h, boolToInt, scoresOf]
    | succ t =>
      have hne : (0 : Int) + ((t + 1 : Nat) : Int) ≠ 0 := by omega
      rw [if_pos hne, scoresOf_succ a b t, List.getLast?_concat]
      simp only [Option.some_bind, Option.bind_eq_bind]
      rw [scoresOf_succ a b (t + 1), scoresOf_succ a b t]
      have := agreeBelow_succ a b (t + 1)
      rw [hag] at this
      rw [this]
      by_cases h : b[t + 1] = a[t + 1] <;> simp [h, boolToInt]
  unfold scanStep
  simp only [hbt, hat, hseg, Option.some_bind, Option.bind_eq_bind]
  exact hpush

theorem scan_eq (n : Int) (a b : List Char) (ha : (a.length : Int) = n)
    (hb : (b.length : Int) = n) :
    scan n a b
      = some { bg := true, v := blocksOf b n.toNat, score := scoresOf a b n.toNat } := by
  unfold scan
  obtain ⟨s, hs, hI⟩ := forLoop_inv
    (fun t (s : Scan) => s = { bg := true, v := blocksOf b t, score := scoresOf a b t })
    0 n (scanStep a b) { bg := true, v := [], score := [] }
    (by simp [blocksOf, unknownPos, scoresOf]) (by
      intro t s ht hI
      subst hI
      exact ⟨_, scanStep_eq a b t (by omega) (by omega), rfl⟩)
  rw [hs, hI]
  simp

/-! ## The two scenarios -/

theorem pre_scoresOf (a b : List Char) (t : Nat) (i : Int) (h0 : 0 ≤ i) (h1 : i ≤ t) :
    pre (scoresOf a b t) i = some ((agreeBelow a b i : Nat) : Int) := by
  unfold pre
  by_cases hi : i = 0
  · subst hi; simp [agreeBelow_zero]
  · rw [if_pos hi]
    obtain ⟨j, rfl⟩ : ∃ j : Nat, i = (j : Int) + 1 := ⟨(i - 1).toNat, by omega⟩
    have : (j : Int) + 1 - 1 = (j : Int) := by omega
    rw [this, rd_natCast, scoresOf_getElem? a b t j (by omega)]

theorem blocksOf_snd (b : List Char) (t : Nat) (blk : Int × Int) (h : blk ∈ blocksOf b t) :
    blk.2 = 1 := by
  unfold blocksOf at h
  obtain ⟨j, _, rfl⟩ := List.mem_map.mp h
  rfl

theorem blocksOf_getLast? (b : List Char) (t : Nat) (h : b[t]? = some unknown) :
    (blocksOf b (t + 1)).getLast? = some ((t : Int), 1) := by
  unfold blocksOf
  rw [unknownPos_succ, if_pos h, List.map_append, List.map_singleton, List.getLast?_concat]

theorem unknownPos_getElem? (b : List Char) (t N : Nat) (h : t < N)
    (hb : b[t]? = some unknown) : (unknownPos b N)[(unknownPos b t).length]? = some t := by
  induction N with
  | zero => omega
  | succ N ih =>
    rw [unknownPos_succ]
    by_cases htN : t = N
    · subst htN
      rw [if_pos hb, List.getElem?_append_right (le_refl _)]
      simp
    · have hlt := (List.getElem?_eq_some_iff.mp (ih (by omega))).1
      rw [List.getElem?_append_left hlt]
      exact ih (by omega)

theorem blocksOf_getElem? (b : List Char) (t N : Nat) (h : t < N)
    (hb : b[t]? = some unknown) :
    (blocksOf b N)[(unknownPos b t).length]? = some ((t : Int), 1) := by
  unfold blocksOf
  rw [List.getElem?_map, unknownPos_getElem? b t N h hb]
  rfl

theorem trailingStep_eq (n : Int) (a b : List Char) (ha : (a.length : Int) = n)
    (hb : (b.length : Int) = n) (hlast : rd b (n - 1) = some unknown)
    (i : Int) (r : Nat) (h0 : 0 ≤ i) (h1 : i < n) :
    trailingStep n a b (blocksOf b n.toNat) (scoresOf a b n.toNat) i (r : Int)
      = some ((max r (trailTerm n a b i) : Nat) : Int) := by
  obtain ⟨x, hx⟩ := rd_isSome b i h0 (by omega)
  unfold trailingStep trailTerm
  rw [hx]
  by_cases hxu : x = unknown
  · simp [hxu]
  · have hl : (blocksOf b n.toNat).getLast? = some (((n.toNat - 1 : Nat) : Int), 1) := by
      have h := (rd_eq_some_iff _ _ _).mp hlast
      have e : n.toNat = (n - 1).toNat + 1 := by omega
      rw [e]
      rw [blocksOf_getLast? b (n - 1).toNat h.2]
      simp
    have hf := f_eq_fSpec n 1 i a b ha hb h0
    have hp := pre_scoresOf a b n.toNat i h0 (by omega)
    simp only [Option.some_bind, Option.bind_eq_bind, hl, hf, hp]
    simp [hxu]

theorem trailing_eq (n : Int) (a b : List Char) (hn : 1 ≤ n) (ha : (a.length : Int) = n)
    (hb : (b.length : Int) = n) (r : Nat) :
    trailing n a b (blocksOf b n.toNat) (scoresOf a b n.toNat) (r : Int)
      = some ((max r (trailSup n a b) : Nat) : Int) := by
  obtain ⟨x, hx⟩ := rd_isSome b (n - 1) (by omega) (by omega)
  unfold trailing trailSup
  rw [hx]
  by_cases hxu : x = unknown
  · subst hxu
    simp only [Option.some_bind, Option.bind_eq_bind, if_true]
    exact forLoop_sup 0 n _ (trailTerm n a b)
      (fun i r h0 h1 => trailingStep_eq n a b ha hb hx i r h0 h1) r
  · simp [hxu]

theorem walkStep_eq (n : Int) (a b : List Char) (ha : (a.length : Int) = n)
    (hb : (b.length : Int) = n) (t : Nat) (r : Nat) (h1 : (t : Int) < n) :
    walkStep n a b (blocksOf b n.toNat) (scoresOf a b n.toNat) (0 + (t : Int))
        { bg := true, cnt := ((unknownPos b t).length : Int), ans := (r : Int) }
      = some { bg := true, cnt := ((unknownPos b (t + 1)).length : Int),
               ans := ((max r (walkTerm n a b t) : Nat) : Int) } := by
  have htb : t < b.length := by omega
  have hx : rd b (0 + (t : Int)) = some b[t] := by
    simp [rd, List.getElem?_eq_getElem htb]
  have hx' : rd b (t : Int) = some b[t] := by simpa using hx
  unfold walkStep walkTerm
  rw [hx, hx', unknownPos_succ, List.getElem?_eq_getElem htb]
  by_cases hxu : b[t] = unknown
  · have hblk := blocksOf_getElem? b t n.toNat (by omega)
      (by rw [List.getElem?_eq_getElem htb, hxu])
    simp only [Option.some_bind, Option.bind_eq_bind, rd_natCast, hblk]
    by_cases hskip : (1 : Int) + (0 + (t : Int)) ≥ n - 1
    · have hns : ¬ ((1 : Int) + (t : Int) < n - 1) := by omega
      simp [hxu, hns]
      intro hc
      omega
    · have hns : (1 : Int) + (t : Int) < n - 1 := by omega
      have hg := g_eq_gSpec n 1 ((t : Int) + 1) a b ha hb (by omega)
      have hp := pre_scoresOf a b n.toNat t (by omega) (by omega)
      have e1 : (0 : Int) + (t : Int) + 1 = (t : Int) + 1 := by omega
      have e2 : (0 : Int) + (t : Int) = (t : Int) := by omega
      simp only [e1, e2] at hskip ⊢
      simp [hxu, hskip, hns, hg, hp]
  · simp [hxu]

theorem perBlock_eq (n : Int) (a b : List Char) (ha : (a.length : Int) = n)
    (hb : (b.length : Int) = n) (r : Nat) :
    perBlock n a b (blocksOf b n.toNat) (scoresOf a b n.toNat) (r : Int)
      = some ((max r (walkSup n a b) : Nat) : Int) := by
  unfold perBlock walkSup
  obtain ⟨s, hs, hI⟩ := forLoop_inv
    (fun t (s : Walk) => s =
      { bg := true, cnt := ((unknownPos b t).length : Int),
        ans := ((max r ((Finset.Ico (0 : Int) t).sup (walkTerm n a b)) : Nat) : Int) })
    0 n (walkStep n a b (blocksOf b n.toNat) (scoresOf a b n.toNat))
    { bg := true, cnt := 0, ans := (r : Int) }
    (by simp [unknownPos]) (by
      intro t s ht hI
      subst hI
      refine ⟨_, walkStep_eq n a b ha hb t _ (by omega), ?_⟩
      have hins := Ico_succ_insert 0 t
      simp only [zero_add] at hins
      show _ = ({ bg := true, cnt := ((unknownPos b (t + 1)).length : Int),
                  ans := ((max r ((Finset.Ico (0 : Int) ((t + 1 : Nat) : Int)).sup
                    (walkTerm n a b)) : Nat) : Int) } : Walk)
      rw [hins, Finset.sup_insert]
      congr 2
      omega)
  rw [hs, hI]
  have e := Ico_toNat 0 n
  simp only [zero_add] at e
  rw [e]
  rfl

/-- On a well-formed test case `give_input` prints the closed form `answer`,
computed on the reference as read and on the target of the overrides. -/
theorem give_input_eq (n m : Int) (toks : List Char) (ovr : List (Int × Char))
    (h : WellFormed n m toks ovr) :
    give_input n m toks ovr = some ((answer n toks (target n ovr) : Nat) : Int) := by
  obtain ⟨hn, htoks, hovr, hpos⟩ := h
  have hbl : ((target n ovr).length : Int) = n := by rw [target_length]; omega
  unfold give_input
  rw [readA_eq n toks (by omega) htoks, readB_eq n m ovr (by omega) hovr hpos]
  simp only [Option.some_bind, Option.bind_eq_bind]
  rw [scan_eq n toks (target n ovr) htoks hbl]
  simp only [Option.some_bind, Option.bind_eq_bind]
  have hlast : rd (scoresOf toks (target n ovr) n.toNat) (n - 1)
      = some ((agreeBelow toks (target n ovr) n : Nat) : Int) := by
    obtain ⟨j, rfl⟩ : ∃ j : Nat, n = (j : Int) + 1 := ⟨(n - 1).toNat, by omega⟩
    have : (j : Int) + 1 - 1 = (j : Int) := by omega
    rw [this, rd_natCast, scoresOf_getElem? _ _ _ j (by omega)]
  rw [hlast]
  simp only [Option.some_bind, Option.bind_eq_bind]
  rw [trailing_eq n toks (target n ovr) hn htoks hbl]
  simp only [Option.some_bind, Option.bind_eq_bind]
  rw [perBlock_eq n toks (target n ovr) htoks hbl]
  rfl

/-! ## Bounds on the closed form -/

theorem trailTerm_le (n : Int) (a b : List Char) (i : Int) (h0 : 0 ≤ i) (h1 : i < n) :
    (trailTerm n a b i : Int) ≤ n := by
  unfold trailTerm
  split
  · simp; omega
  · have h2 := agreeBelow_le a b i
    have h3 := fSpec_le n 1 i a b
    push_cast
    omega

theorem walkTerm_le (n : Int) (a b : List Char) (i : Int) (h0 : 0 ≤ i) (h1 : i < n) :
    (walkTerm n a b i : Int) ≤ n := by
  unfold walkTerm
  split
  · have h2 := agreeBelow_le a b i
    have h3 := gSpec_le n 1 (i + 1) a b
    push_cast
    omega
  · simp; omega

theorem answer_le (n : Int) (a b : List Char) (hn : 0 ≤ n) : (answer n a b : Int) ≤ n := by
  have h1 : agreeBelow a b n ≤ n.toNat := by
    have := agreeBelow_le a b n
    omega
  have h2 : trailSup n a b ≤ n.toNat := by
    unfold trailSup
    split
    · apply Finset.sup_le
      intro i hi
      have hi' := Finset.mem_Ico.mp hi
      have := trailTerm_le n a b i hi'.1 hi'.2
      omega
    · omega
  have h3 : walkSup n a b ≤ n.toNat := by
    unfold walkSup
    apply Finset.sup_le
    intro i hi
    have hi' := Finset.mem_Ico.mp hi
    have := walkTerm_le n a b i hi'.1 hi'.2
    omega
  unfold answer
  omega

theorem agreeBelow_le_answer (n : Int) (a b : List Char) : agreeBelow a b n ≤ answer n a b := by
  unfold answer
  omega

theorem rd_scoresOf_last (a b : List Char) (n : Int) (hn : 1 ≤ n) :
    rd (scoresOf a b n.toNat) (n - 1) = some ((agreeBelow a b n : Nat) : Int) := by
  obtain ⟨j, rfl⟩ : ∃ j : Nat, n = (j : Int) + 1 := ⟨(n - 1).toNat, by omega⟩
  have : (j : Int) + 1 - 1 = (j : Int) := by omega
  rw [this, rd_natCast, scoresOf_getElem? _ _ _ j (by omega)]

/-! ## Claims C1 and C2 -/

/-- C1: on every well-formed test case `give_input` prints an answer, and the
answer is at most `n`. -/
theorem C1_answer_le_n (n m : Int) (toks : List Char) (ovr : List (Int × Char))
    (h : WellFormed n m toks ovr) :
    ∃ ans, give_input n m toks ovr = some ans ∧ ans ≤ n :=
  ⟨_, give_input_eq n m toks ovr h, answer_le n toks (target n ovr) (by have := h.1; omega)⟩

theorem C1_answer_le_n_witness :
    WellFormed 5 1 ['a', 'b', 'c', 'd', 'e'] [(3, 'c')] ∧
      ∃ ans, give_input 5 1 ['a', 'b', 'c', 'd', 'e'] [(3, 'c')] = some ans ∧ ans ≤ 5 :=
  ⟨by decide, C1_answer_le_n 5 1 ['a', 'b', 'c', 'd', 'e'] [(3, 'c')] (by decide)⟩

/-- C2: on every well-formed test case the answer printed by `give_input` is
at least `score[n - 1]`, the last entry of the prefix score array that the
first scan computes for that test case. -/
theorem C2_answer_ge_base (n m : Int) (toks : List Char) (ovr : List (Int × Char))
    (h : WellFormed n m toks ovr) :
    ∃ a b s last ans, readA n toks = some a ∧ readB n m ovr = some b ∧
      scan n a b = some s ∧ rd s.score (n - 1) = some last ∧
      give_input n m toks ovr = some ans ∧ last ≤ ans := by
  obtain ⟨hn, htoks, hovr, hpos⟩ := h
  have hbl : ((target n ovr).length : Int) = n := by rw [target_length]; omega
  refine ⟨toks, target n ovr, _, _, _, readA_eq n toks (by omega) htoks,
    readB_eq n m ovr (by omega) hovr hpos, scan_eq n toks (target n ovr) htoks hbl,
    rd_scoresOf_last toks (target n ovr) n hn,
    give_input_eq n m toks ovr ⟨hn, htoks, hovr, hpos⟩, ?_⟩
  exact_mod_cast agreeBelow_le_answer n toks (target n ovr)

theorem C2_answer_ge_base_witness :
    WellFormed 3 3 ['x', 'y', 'z'] [(1, '0'), (2, 'x'), (3, 'y')] ∧
      ∃ a b s last ans, readA 3 ['x', 'y', 'z'] = some a ∧
        readB 3 3 [(1, '0'), (2, 'x'), (3, 'y')] = some b ∧
        scan 3 a b = some s ∧ rd s.score (3 - 1) = some last ∧
        give_input 3 3 ['x', 'y', 'z'] [(1, '0'), (2, 'x'), (3, 'y')] = some ans ∧ last ≤ ans :=
  ⟨by decide, C2_answer_ge_base 3 3 ['x', 'y', 'z'] [(1, '0'), (2, 'x'), (3, 'y')] (by decide)⟩

/-! ## Targets without, and made only of, unknown positions -/

theorem lastOverride_mem (ovr : List (Int × Char)) (p : Int) (c : Char)
    (h : lastOverride ovr p = some c) : ∃ o ∈ ovr, o.1 = p ∧ o.2 = c := by
  unfold lastOverride at h
  obtain ⟨o, ho, hc⟩ := Option.map_eq_some'.mp h
  have hmem := List.mem_of_getLast?_eq_some ho
  rw [List.mem_filter] at hmem
  exact ⟨o, hmem.1, by simpa using hmem.2, hc⟩

theorem lastOverride_isSome (ovr : List (Int × Char)) (p : Int)
    (h : ∃ o ∈ ovr, o.1 = p) : ∃ c, lastOverride ovr p = some c := by
  obtain ⟨o, ho, hp⟩ := h
  have hmem : o ∈ ovr.filter (fun o => decide (o.1 = p)) := by
    rw [List.mem_filter]; exact ⟨ho, by simpa using hp⟩
  unfold lastOverride
  cases hl : (ovr.filter (fun o => decide (o.1 = p))).getLast? with
  | none =>
    rw [List.getLast?_eq_none_iff] at hl
    rw [hl] at hmem
    simp at hmem
  | some x => exact ⟨x.2, rfl⟩

theorem target_concrete (n : Int) (ovr : List (Int × Char))
    (hcov : ∀ p : Int, 1 ≤ p → p ≤ n → ∃ o ∈ ovr, o.1 = p)
    (hsym : ∀ o ∈ ovr, o.2 ≠ unknown) (i : Int) : rd (target n ovr) i ≠ some unknown := by
  intro h
  obtain ⟨h0, h1⟩ := rd_length_lt _ _ _ h
  rw [target_length] at h1
  obtain ⟨q, rfl⟩ : ∃ q : Nat, i = (q : Int) := ⟨i.toNat, by omega⟩
  rw [rd_natCast, target_getElem? n ovr q (by omega)] at h
  obtain ⟨c, hc⟩ := lastOverride_isSome ovr ((q : Int) + 1) (hcov _ (by omega) (by omega))
  obtain ⟨o, ho, _, hoc⟩ := lastOverride_mem ovr _ c hc
  rw [hc] at h
  simp only [Option.getD_some, Option.some.injEq] at h
  exact hsym o ho (hoc.trans h)

theorem unknownPos_eq_nil (b : List Char) (t : Nat) (h : ∀ i : Int, rd b i ≠ some unknown) :
    unknownPos b t = [] := by
  unfold unknownPos
  rw [List.filter_eq_nil_iff]
  intro j _
  have := h (j : Int)
  rw [rd_natCast] at this
  simpa using this

theorem trailing_concrete (n : Int) (a b : List Char) (v : List (Int × Int))
    (score : List Int) (hn : 1 ≤ n) (hb : (b.length : Int) = n)
    (h : ∀ i : Int, rd b i ≠ some unknown) (ans : Int) :
    trailing n a b v score ans = some ans := by
  obtain ⟨x, hx⟩ := rd_isSome b (n - 1) (by omega) (by omega)
  have hxu : x ≠ unknown := fun e => h (n - 1) (by rw [hx, e])
  unfold trailing
  rw [hx]
  simp [hxu]

theorem perBlock_concrete (n : Int) (a b : List Char) (v : List (Int × Int))
    (score : List Int) (hb : (b.length : Int) = n)
    (h : ∀ i : Int, rd b i ≠ some unknown) (ans : Int) :
    perBlock n a b v score ans = some ans := by
  unfold perBlock
  obtain ⟨s, hs, hI⟩ := forLoop_inv
    (fun _ (s : Walk) => s = { bg := true, cnt := 0, ans := ans })
    0 n (walkStep n a b v score) { bg := true, cnt := 0, ans := ans } rfl (by
      intro t s ht hI
      subst hI
      obtain ⟨x, hx⟩ := rd_isSome b (0 + (t : Int)) (by omega) (by omega)
      have hxu : x ≠ unknown := fun e => h (0 + (t : Int)) (by rw [hx, e])
      refine ⟨_, ?_, rfl⟩
      unfold walkStep
      rw [hx]
      simp [hxu])
  rw [hs, hI]
  rfl

theorem answer_concrete (n : Int) (a b : List Char) (h : ∀ i : Int, rd b i ≠ some unknown) :
    answer n a b = agreeBelow a b n := by
  have h2 : trailSup n a b = 0 := by
    unfold trailSup
    rw [if_neg (h (n - 1))]
  have h3 : walkSup n a b = 0 := by
    unfold walkSup
    apply Nat.le_zero.mp
    apply Finset.sup_le
    intro i _
    unfold walkTerm
    rw [if_neg (fun hc => h i hc.1)]
  unfold answer
  omega

/-- If no symbol is stored in both sequences, no comparison succeeds. -/
theorem agree_false_of_disjoint {α : Type} [DecidableEq α] (a b : List α)
    (h : ∀ x, x ∈ b → x ∈ a → False) (j j' : Int) : agree b j a j' = false := by
  cases hbj : rd b j with
  | none => simp [agree, hbj]
  | some x =>
    cases haj : rd a j' with
    | none => simp [agree, hbj, haj]
    | some y =>
      rw [agree_of_rd a b j j' x y hbj haj]
      have hx := List.getElem?_mem ((rd_eq_some_iff _ _ _).mp hbj).2
      have hy := List.getElem?_mem ((rd_eq_some_iff _ _ _).mp haj).2
      simp only [decide_eq_false_iff_not]
      intro e
      exact h x hx (e ▸ hy)

theorem answer_disjoint (n : Int) (a b : List Char) (h : ∀ x, x ∈ b → x ∈ a → False) :
    answer n a b = 0 := by
  have hag := agree_false_of_disjoint a b h
  have h1 : ∀ t, agreeBelow a b t = 0 := by
    intro t; simp [agreeBelow, hag]
  have hf : ∀ k i, fSpec n k i a b = 0 := by
    intro k i
    apply Nat.le_zero.mp
    apply Finset.sup_le
    intro s _
    simp [fwdCount, hag]
  have hg : ∀ k i, gSpec n k i a b = 0 := by
    intro k i
    apply Nat.le_zero.mp
    apply Finset.sup_le
    intro s _
    simp [bwdCount, hag]
  have h2 : trailSup n a b = 0 := by
    unfold trailSup
    split
    · apply Nat.le_zero.mp
      apply Finset.sup_le
      intro i _
      unfold trailTerm
      split <;> simp [h1, hf]
    · rfl
  have h3 : walkSup n a b = 0 := by
    unfold walkSup
    apply Nat.le_zero.mp
    apply Finset.sup_le
    intro i _
    unfold walkTerm
    split <;> simp [h1, hg]
  unfold answer
  rw [h1, h2, h3]
  rfl

theorem target_nil (n : Int) : target n [] = List.replicate n.toNat unknown := by
  apply List.ext_getElem?
  intro q
  by_cases hq : q < n.toNat
  · rw [target_getElem? n [] q (by omega), List.getElem?_replicate_of_lt hq]
    rfl
  · rw [List.getElem?_eq_none (by rw [target_length]; omega),
      List.getElem?_eq_none (by simp; omega)]

/-! ## Claims C3 and C4 -/

/-- C3, refuted as stated: with `n = m = 3`, reference `x y z` and the overrides
`(1, '0')`, `(2, 'x')`, `(3, 'y')`, whose positions are distinct and cover
`[1, 3]`, the first scan records the block `(0, 1)` and `give_input` prints `2`,
although no position of the target agrees with the reference. -/
theorem C3_counterexample :
    WellFormed 3 3 ['x', 'y', 'z'] [(1, '0'), (2, 'x'), (3, 'y')] ∧
    (([(1, '0'), (2, 'x'), (3, 'y')] : List (Int × Char)).map Prod.fst).Nodup ∧
    (∀ p : Int, 1 ≤ p → p ≤ 3 →
      ∃ o ∈ ([(1, '0'), (2, 'x'), (3, 'y')] : List (Int × Char)), o.1 = p) ∧
    readB 3 3 [(1, '0'), (2, 'x'), (3, 'y')] = some ['0', 'x', 'y'] ∧
    (scan 3 ['x', 'y', 'z'] ['0', 'x', 'y']).map Scan.v = some [(0, 1)] ∧
    agreeBelow ['x', 'y', 'z'] ['0', 'x', 'y'] 3 = 0 ∧
    give_input 3 3 ['x', 'y', 'z'] [(1, '0'), (2, 'x'), (3, 'y')] = some 2 := by
  refine ⟨by decide, by decide, ?_, by decide, by decide, by decide, by decide⟩
  intro p h1 h2
  have hp : p = 1 ∨ p = 2 ∨ p = 3 := by omega
  rcases hp with rfl | rfl | rfl <;> simp

/-- C3, amended: if moreover no override symbol is the sentinel `'0'`, then
the first scan records no block, neither scenario changes the running answer,
and `give_input` prints the number of positions `i` in `[0, n)` with
`B[i] = A[i]`. -/
theorem C3_all_overridden (n m : Int) (toks : List Char) (ovr : List (Int × Char))
    (h : WellFormed n m toks ovr) (_hm : m = n) (_hnd : (ovr.map Prod.fst).Nodup)
    (hcov : ∀ p : Int, 1 ≤ p → p ≤ n → ∃ o ∈ ovr, o.1 = p)
    (hsym : ∀ o ∈ ovr, o.2 ≠ unknown) :
    ∃ a b s, readA n toks = some a ∧ readB n m ovr = some b ∧ scan n a b = some s ∧
      s.v = [] ∧
      (∀ ans, trailing n a b s.v s.score ans = some ans) ∧
      (∀ ans, perBlock n a b s.v s.score ans = some ans) ∧
      give_input n m toks ovr = some ((agreeBelow a b n : Nat) : Int) := by
  have hwf := h
  obtain ⟨hn, htoks, hovr, hpos⟩ := h
  have hbl : ((target n ovr).length : Int) = n := by rw [target_length]; omega
  have hconc := target_concrete n ovr hcov hsym
  refine ⟨toks, target n ovr, _, readA_eq n toks (by omega) htoks,
    readB_eq n m ovr (by omega) hovr hpos, scan_eq n toks (target n ovr) htoks hbl, ?_,
    fun ans => trailing_concrete n _ _ _ _ hn hbl hconc ans,
    fun ans => perBlock_concrete n _ _ _ _ hbl hconc ans, ?_⟩
  · show blocksOf (target n ovr) n.toNat = []
    unfold blocksOf
    rw [unknownPos_eq_nil _ _ hconc]
    rfl
  · rw [give_input_eq n m toks ovr hwf, answer_concrete n toks _ hconc]

theorem C3_all_overridden_witness :
    WellFormed 2 2 ['a', 'b'] [(2, 'c'), (1, 'a')] ∧ (2 : Int) = 2 ∧
    (([(2, 'c'), (1, 'a')] : List (Int × Char)).map Prod.fst).Nodup ∧
    (∀ o ∈ ([(2, 'c'), (1, 'a')] : List (Int × Char)), o.2 ≠ unknown) ∧
    ∃ a b s, readA 2 ['a', 'b'] = some a ∧ readB 2 2 [(2, 'c'), (1, 'a')] = some b ∧
      scan 2 a b = some s ∧ s.v = [] ∧
      (∀ ans, trailing 2 a b s.v s.score ans = some ans) ∧
      (∀ ans, perBlock 2 a b s.v s.score ans = some ans) ∧
      give_input 2 2 ['a', 'b'] [(2, 'c'), (1, 'a')] = some ((agreeBelow a b 2 : Nat) : Int) :=
  ⟨by decide, rfl, by decide, by decide,
    C3_all_overridden 2 2 ['a', 'b'] [(2, 'c'), (1, 'a')] (by decide) rfl (by decide)
      (by
        intro p h1 h2
        have hp : p = 1 ∨ p = 2 := by omega
        rcases hp with rfl | rfl <;> simp)
      (by decide)⟩

/-- C4, refuted as stated: with `n = 1`, `m = 0` and the reference symbol
`'0'`, `give_input` prints `1`. -/
theorem C4_counterexample :
    WellFormed 1 0 ['0'] [] ∧ give_input 1 0 ['0'] [] = some 1 := by
  decide

/-- C4, amended: when there are no overrides and the reference holds no symbol
`'0'`, `give_input` prints `0`; in particular for `n = 1`. -/
theorem C4_no_overrides (n : Int) (toks : List Char) (hn : 1 ≤ n)
    (hlen : (toks.length : Int) = n) (hA : ∀ c ∈ toks, c ≠ unknown) :
    give_input n 0 toks [] = some 0 := by
  rw [give_input_eq n 0 toks [] ⟨hn, hlen, rfl, by simp⟩, target_nil,
    answer_disjoint n toks _ (fun x hb ha => hA x ha (List.eq_of_mem_replicate hb))]
  rfl

theorem C4_no_overrides_witness :
    (1 : Int) ≤ 1 ∧ ((['a'] : List Char).length : Int) = 1 ∧
      (∀ c ∈ (['a'] : List Char), c ≠ unknown) ∧ give_input 1 0 ['a'] [] = some 0 :=
  ⟨by decide, by decide, by decide,
    C4_no_overrides 1 ['a'] (by decide) (by decide) (by decide)⟩

/-! ## Claims C5, C6, C9 and C10 -/

theorem storedAgree_eq (a b : List Char) (i : Int) :
    storedAgree a b i = agreeBelow a b (i + 1) := by
  have e : Finset.Icc 0 i = Finset.Ico 0 (i + 1) := by
    ext x
    simp only [Finset.mem_Icc, Finset.mem_Ico]
    omega
  unfold storedAgree agreeBelow
  rw [e]

theorem concreteAgree_eq (a b : List Char) (i : Int) (hA : ∀ c ∈ a, c ≠ unknown) :
    concreteAgree a b i = storedAgree a b i := by
  unfold concreteAgree storedAgree
  congr 1
  apply Finset.filter_congr
  intro j _
  constructor
  · exact fun h => h.2
  · intro h
    refine ⟨?_, h⟩
    intro hu
    have hag := h
    unfold agree at hag
    rw [hu] at hag
    simp only [Option.isSome_some, Bool.true_and, decide_eq_true_eq] at hag
    exact hA unknown (List.getElem?_mem ((rd_eq_some_iff _ _ _).mp hag.symm).2) rfl

theorem rd_scoresOf (a b : List Char) (t : Nat) (i : Int) (h0 : 0 ≤ i) (h1 : i < t) :
    rd (scoresOf a b t) i = some ((agreeBelow a b (i + 1) : Nat) : Int) := by
  obtain ⟨j, rfl⟩ : ∃ j : Nat, i = (j : Int) := ⟨i.toNat, by omega⟩
  rw [rd_natCast, scoresOf_getElem? a b t j (by omega)]

/-- C5, refuted as stated: with `n = 1`, `m = 0` and the reference symbol `'0'`
the only position of the target is unknown, yet `score[0] = 1`, while the
number of concrete agreeing positions is `0`. -/
theorem C5_counterexample :
    WellFormed 1 0 ['0'] [] ∧ readA 1 ['0'] = some ['0'] ∧ readB 1 0 [] = some [unknown] ∧
      (scan 1 ['0'] [unknown]).map Scan.score = some [1] ∧
      concreteAgree ['0'] [unknown] 0 = 0 := by
  decide

/-- C5, amended: on a well-formed test case, for every `i` in `[0, n)`,
`score[i]` is the number of positions `j ≤ i` at which the stored symbols
`B[j]` and `A[j]` are equal, the sentinel `'0'` of an unknown position being
compared like any symbol; when the reference holds no `'0'` this is the number
of positions `j ≤ i` at which `B[j]` is concrete and equal to `A[j]`. -/
theorem C5_prefix_score (n m : Int) (toks : List Char) (ovr : List (Int × Char))
    (h : WellFormed n m toks ovr) (i : Int) (h0 : 0 ≤ i) (h1 : i < n) :
    ∃ a b s, readA n toks = some a ∧ readB n m ovr = some b ∧ scan n a b = some s ∧
      rd s.score i = some ((storedAgree a b i : Nat) : Int) ∧
      ((∀ c ∈ toks, c ≠ unknown) → rd s.score i = some ((concreteAgree a b i : Nat) : Int)) := by
  obtain ⟨hn, htoks, hovr, hpos⟩ := h
  have hbl : ((target n ovr).length : Int) = n := by rw [target_length]; omega
  have hs : rd (scoresOf toks (target n ovr) n.toNat) i
      = some ((storedAgree toks (target n ovr) i : Nat) : Int) := by
    rw [storedAgree_eq]
    exact rd_scoresOf toks (target n ovr) n.toNat i h0 (by omega)
  refine ⟨toks, target n ovr, _, readA_eq n toks (by omega) htoks,
    readB_eq n m ovr (by omega) hovr hpos, scan_eq n toks (target n ovr) htoks hbl, hs, ?_⟩
  intro hA
  rw [concreteAgree_eq toks (target n ovr) i hA]
  exact hs

theorem C5_prefix_score_witness :
    WellFormed 5 1 ['a', 'b', 'c', 'd', 'e'] [(3, 'c')] ∧ (0 : Int) ≤ 4 ∧ (4 : Int) < 5 ∧
    ∃ a b s, readA 5 ['a', 'b', 'c', 'd', 'e'] = some a ∧ readB 5 1 [(3, 'c')] = some b ∧
      scan 5 a b = some s ∧
      rd s.score 4 = some ((storedAgree a b 4 : Nat) : Int) ∧
      ((∀ c ∈ ['a', 'b', 'c', 'd', 'e'], c ≠ unknown) →
        rd s.score 4 = some ((concreteAgree a b 4 : Nat) : Int)) :=
  ⟨by decide, by decide, by decide,
    C5_prefix_score 5 1 ['a', 'b', 'c', 'd', 'e'] [(3, 'c')] (by decide) 4 (by decide)
      (by decide)⟩

/-- C6: on a well-formed test case the reference is stored exactly as read,
the target has length `n`, position `p - 1` of the target holds the symbol of
the last override in input order whose position is `p`, and a position that no
override names holds the sentinel. -/
theorem C6_sequence_builder (n m : Int) (toks : List Char) (ovr : List (Int × Char))
    (h : WellFormed n m toks ovr) :
    ∃ a b, readA n toks = some a ∧ readB n m ovr = some b ∧ a = toks ∧
      (b.length : Int) = n ∧
      (∀ p c, 1 ≤ p → p ≤ n → lastOverride ovr p = some c → rd b (p - 1) = some c) ∧
      (∀ p, 1 ≤ p → p ≤ n → (∀ o ∈ ovr, o.1 ≠ p) → rd b (p - 1) = some unknown) := by
  obtain ⟨hn, htoks, hovr, hpos⟩ := h
  have hbl : ((target n ovr).length : Int) = n := by rw [target_length]; omega
  have key : ∀ p, 1 ≤ p → p ≤ n →
      rd (target n ovr) (p - 1) = some ((lastOverride ovr p).getD unknown) := by
    intro p hp1 hp2
    obtain ⟨q, rfl⟩ : ∃ q : Nat, p = (q : Int) + 1 := ⟨(p - 1).toNat, by omega⟩
    have : (q : Int) + 1 - 1 = (q : Int) := by omega
    rw [this, rd_natCast, target_getElem? n ovr q (by omega)]
  refine ⟨toks, target n ovr, readA_eq n toks (by omega) htoks,
    readB_eq n m ovr (by omega) hovr hpos, rfl, hbl, ?_, ?_⟩
  · intro p c hp1 hp2 hc
    rw [key p hp1 hp2, hc]
    rfl
  · intro p hp1 hp2 hno
    rw [key p hp1 hp2]
    cases hc : lastOverride ovr p with
    | none => rfl
    | some c =>
      obtain ⟨o, ho, hop, _⟩ := lastOverride_mem ovr p c hc
      exact absurd hop (hno o ho)

theorem C6_sequence_builder_witness :
    WellFormed 3 3 ['x', 'y', 'z'] [(2, 'p'), (1, 'q'), (2, 'r')] ∧
    ∃ a b, readA 3 ['x', 'y', 'z'] = some a ∧
      readB 3 3 [(2, 'p'), (1, 'q'), (2, 'r')] = some b ∧ a = ['x', 'y', 'z'] ∧
      (b.length : Int) = 3 ∧
      (∀ p c, 1 ≤ p → p ≤ 3 → lastOverride [(2, 'p'), (1, 'q'), (2, 'r')] p = some c →
        rd b (p - 1) = some c) ∧
      (∀ p, 1 ≤ p → p ≤ 3 →
        (∀ o ∈ ([(2, 'p'), (1, 'q'), (2, 'r')] : List (Int × Char)), o.1 ≠ p) →
        rd b (p - 1) = some unknown) :=
  ⟨by decide, C6_sequence_builder 3 3 ['x', 'y', 'z'] [(2, 'p'), (1, 'q'), (2, 'r')]
    (by decide)⟩

/-- C9, the program at the failing inputs: for the target `[?, ?, c, ?, ?]` the
first scan builds the block list `(0,1), (1,1), (3,1), (4,1)`, not the maximal
runs `(0,2), (3,2)`; for an entirely unknown target of length `2` it builds
`(0,1), (1,1)`, not the single block `(0,2)`. -/
theorem C9_blocks_not_merged :
    readB 5 1 [(3, 'c')] = some [unknown, unknown, 'c', unknown, unknown] ∧
    (scan 5 ['a', 'b', 'c', 'd', 'e'] [unknown, unknown, 'c', unknown, unknown]).map Scan.v
      = some [(0, 1), (1, 1), (3, 1), (4, 1)] ∧
    (scan 5 ['a', 'b', 'c', 'd', 'e'] [unknown, unknown, 'c', unknown, unknown]).map Scan.v
      ≠ some [(0, 2), (3, 2)] ∧
    readB 2 0 [] = some [unknown, unknown] ∧
    (scan 2 ['a', 'b'] [unknown, unknown]).map Scan.v = some [(0, 1), (1, 1)] ∧
    (scan 2 ['a', 'b'] [unknown, unknown]).map Scan.v ≠ some [(0, 2)] := by
  decide

/-- C10: on the example `n = 5`, `m = 1`, reference `a b c d e`, override
`(3, c)`, the target is `[?, ?, c, ?, ?]`, the base prefix score `score[4]` is
at least `1`, and the answer printed lies between `1` and `5`. -/
theorem C10_example :
    ∃ b s base ans, readA 5 ['a', 'b', 'c', 'd', 'e'] = some ['a', 'b', 'c', 'd', 'e'] ∧
      readB 5 1 [(3, 'c')] = some b ∧ b = [unknown, unknown, 'c', unknown, unknown] ∧
      scan 5 ['a', 'b', 'c', 'd', 'e'] b = some s ∧
      rd s.score 4 = some base ∧ 1 ≤ base ∧
      give_input 5 1 ['a', 'b', 'c', 'd', 'e'] [(3, 'c')] = some ans ∧ 1 ≤ ans ∧ ans ≤ 5 :=
  ⟨[unknown, unknown, 'c', unknown, unknown],
    { bg := true, v := [(0, 1), (1, 1), (3, 1), (4, 1)], score := [0, 0, 1, 1, 1] }, 1, 1,
    by decide, by decide, rfl, by decide, by decide, by decide, by decide, by decide,
    by decide⟩


/-! ## Claim C11: the test cases do not interfere -/

theorem give_inputG_eq (gl : Globals) (tc : TestCase) (h : tc.WellFormed) :
    give_inputG gl tc
      = some (((answer tc.n tc.toks (target tc.n tc.ovr) : Nat) : Int),
              { gl with n := tc.n, m := tc.m }) := by
  unfold give_inputG
  simp only []
  rw [give_input_eq tc.n tc.m tc.toks tc.ovr h]
  rfl

theorem mainLoop_eq (tcs : List TestCase) (h : ∀ tc ∈ tcs, tc.WellFormed) (gl : Globals) :
    ∃ gl1, mainLoop gl tcs
      = some (tcs.map (fun tc => ((answer tc.n tc.toks (target tc.n tc.ovr) : Nat) : Int)),
              gl1) := by
  induction tcs generalizing gl with
  | nil => exact ⟨gl, rfl⟩
  | cons tc rest ih =>
    obtain ⟨gl1, h1⟩ := ih (fun t ht => h t (List.mem_cons_of_mem _ ht))
      (ready (get_output (process { gl with n := tc.n, m := tc.m })))
    refine ⟨gl1, ?_⟩
    unfold mainLoop
    rw [give_inputG_eq gl tc (h tc (List.mem_cons_self _ _))]
    simp only [Option.some_bind, Option.bind_eq_bind]
    rw [h1]
    rfl

theorem main_eq (tcs : List TestCase) (h : ∀ tc ∈ tcs, tc.WellFormed) :
    main tcs
      = some (tcs.map (fun tc => ((answer tc.n tc.toks (target tc.n tc.ovr) : Nat) : Int))) := by
  obtain ⟨gl1, h1⟩ := mainLoop_eq tcs h (preprocess { n := 0, m := 0, k := 0 })
  unfold main
  rw [h1]
  rfl

/-- C11: for every list of well-formed test cases, `main` prints one answer per
test case; the answer at each place is the one `give_input` prints for that
test case from any values of the globals `n`, `m`, `k`, hence the one printed
when the test case is run alone, whatever preceded it; and running the same
input twice prints the same answers twice. -/
theorem C11_test_cases_independent (tcs : List TestCase) (h : ∀ tc ∈ tcs, tc.WellFormed) :
    ∃ outs, main tcs = some outs ∧
      List.Forall₂ (fun tc out => main [tc] = some [out] ∧
        ∀ gl : Globals, (give_inputG gl tc).map Prod.fst = some out) tcs outs ∧
      main (tcs ++ tcs) = some (outs ++ outs) := by
  refine ⟨_, main_eq tcs h, ?_, ?_⟩
  · rw [List.forall₂_map_right_iff, List.forall₂_same]
    intro tc htc
    refine ⟨?_, ?_⟩
    · rw [main_eq [tc] (by simpa using h tc htc)]
      rfl
    · intro gl
      rw [give_inputG_eq gl tc (h tc htc)]
      rfl
  · rw [main_eq (tcs ++ tcs) (by
      intro tc htc
      rcases List.mem_append.mp htc with h1 | h1 <;> exact h tc h1), List.map_append]

theorem C11_test_cases_independent_witness :
    (∀ tc ∈ [({ n := 5, m := 1, toks := ['a', 'b', 'c', 'd', 'e'], ovr := [(3, 'c')] } : TestCase),
        { n := 1, m := 0, toks := ['0'], ovr := [] }], tc.WellFormed) ∧
    ∃ outs, main [{ n := 5, m := 1, toks := ['a', 'b', 'c', 'd', 'e'], ovr := [(3, 'c')] },
        { n := 1, m := 0, toks := ['0'], ovr := [] }] = some outs ∧
      List.Forall₂ (fun tc out => main [tc] = some [out] ∧
        ∀ gl : Globals, (give_inputG gl tc).map Prod.fst = some out)
        [{ n := 5, m := 1, toks := ['a', 'b', 'c', 'd', 'e'], ovr := [(3, 'c')] },
         { n := 1, m := 0, toks := ['0'], ovr := [] }] outs ∧
      main ([{ n := 5, m := 1, toks := ['a', 'b', 'c', 'd', 'e'], ovr := [(3, 'c')] },
        { n := 1, m := 0, toks := ['0'], ovr := [] }] ++
        [{ n := 5, m := 1, toks := ['a', 'b', 'c', 'd', 'e'], ovr := [(3, 'c')] },
         { n := 1, m := 0, toks := ['0'], ovr := [] }]) = some (outs ++ outs) :=
  ⟨by decide, C11_test_cases_independent _ (by decide)⟩


/-! ## Claims C12, C13, C16 and C18 -/

/-- C12, refuted as stated: with `n = 0`, `m = 0` and empty sequences the
builder and the scan leave `score` empty, the read `score[n - 1]` is the read of
index `-1`, out of range, and `give_input` reports no score. -/
theorem C12_counterexample :
    readA 0 [] = some [] ∧ readB 0 0 [] = some [] ∧
      (scan 0 [] []).map Scan.score = some [] ∧
      rd ([] : List Int) (0 - 1) = none ∧ give_input 0 0 [] [] = none := by
  decide

/-- C12, amended: with `n = 0` and `m = 0` the sequence builder and the first
scan touch no position and leave `A`, `B`, the block list and `score` empty;
the statement `int ans = score[n - 1]` then reads outside `score`, so that
`give_input` reports no score. -/
theorem C12_degenerate (toks : List Char) (ovr : List (Int × Char)) :
    readA 0 toks = some [] ∧ readB 0 0 ovr = some [] ∧
      scan 0 [] [] = some { bg := true, v := [], score := [] } ∧
      rd ([] : List Int) (0 - 1) = none ∧ give_input 0 0 toks ovr = none :=
  ⟨rfl, rfl, rfl, rfl, rfl⟩

/-- C13: on a well-formed test case the prefix score array has exactly `n`
entries, `score[0]` is `0` or `1`, and for every `i` in `[0, n - 1)` the
difference `score[i + 1] - score[i]` is `0` or `1`, so that the array is
non-decreasing. -/
theorem C13_score_monotone (n m : Int) (toks : List Char) (ovr : List (Int × Char))
    (h : WellFormed n m toks ovr) :
    ∃ a b s, readA n toks = some a ∧ readB n m ovr = some b ∧ scan n a b = some s ∧
      (s.score.length : Int) = n ∧
      (rd s.score 0 = some 0 ∨ rd s.score 0 = some 1) ∧
      ∀ i, 0 ≤ i → i < n - 1 → ∃ x y, rd s.score i = some x ∧ rd s.score (i + 1) = some y ∧
        x ≤ y ∧ (y - x = 0 ∨ y - x = 1) := by
  obtain ⟨hn, htoks, hovr, hpos⟩ := h
  have hbl : ((target n ovr).length : Int) = n := by rw [target_length]; omega
  refine ⟨toks, target n ovr, _, readA_eq n toks (by omega) htoks,
    readB_eq n m ovr (by omega) hovr hpos, scan_eq n toks (target n ovr) htoks hbl, ?_, ?_, ?_⟩
  · show ((scoresOf toks (target n ovr) n.toNat).length : Int) = n
    rw [scoresOf_length]; omega
  · show rd (scoresOf toks (target n ovr) n.toNat) 0 = some 0 ∨ _
    rw [rd_scoresOf toks (target n ovr) n.toNat 0 (by omega) (by omega)]
    have h1 := agreeBelow_succ toks (target n ovr) 0
    simp only [Nat.cast_zero, agreeBelow_zero] at h1
    rw [h1]
    split <;> simp
  · intro i h0 h1
    refine ⟨_, _, rd_scoresOf toks (target n ovr) n.toNat i h0 (by omega),
      rd_scoresOf toks (target n ovr) n.toNat (i + 1) (by omega) (by omega), ?_⟩
    obtain ⟨t, ht⟩ : ∃ t : Nat, i + 1 = (t : Int) := ⟨(i + 1).toNat, by omega⟩
    have h2 := agreeBelow_succ toks (target n ovr) t
    rw [ht, h2]
    split <;> simp

theorem C13_score_monotone_witness :
    WellFormed 5 1 ['a', 'b', 'c', 'd', 'e'] [(3, 'c')] ∧
    ∃ a b s, readA 5 ['a', 'b', 'c', 'd', 'e'] = some a ∧ readB 5 1 [(3, 'c')] = some b ∧
      scan 5 a b = some s ∧ (s.score.length : Int) = 5 ∧
      (rd s.score 0 = some 0 ∨ rd s.score 0 = some 1) ∧
      ∀ i, 0 ≤ i → i < (5 : Int) - 1 → ∃ x y, rd s.score i = some x ∧
        rd s.score (i + 1) = some y ∧ x ≤ y ∧ (y - x = 0 ∨ y - x = 1) :=
  ⟨by decide, C13_score_monotone 5 1 ['a', 'b', 'c', 'd', 'e'] [(3, 'c')] (by decide)⟩

theorem mem_blocksOf (b : List Char) (t : Nat) (i : Int) :
    (i, (1 : Int)) ∈ blocksOf b t ↔ i < t ∧ rd b i = some unknown := by
  unfold blocksOf unknownPos
  constructor
  · intro h
    obtain ⟨j, hj, hij⟩ := List.mem_map.mp h
    rw [List.mem_filter, List.mem_range] at hj
    have e : i = (j : Int) := (congrArg Prod.fst hij).symm
    subst e
    exact ⟨by omega, by rw [rd_natCast]; simpa using hj.2⟩
  · intro ⟨h1, h2⟩
    have h3 := (rd_length_lt _ _ _ h2).1
    obtain ⟨j, rfl⟩ : ∃ j : Nat, i = (j : Int) := ⟨i.toNat, by omega⟩
    rw [rd_natCast] at h2
    exact List.mem_map.mpr ⟨j, by
      rw [List.mem_filter, List.mem_range]
      exact ⟨by omega, by simpa using h2⟩, rfl⟩

theorem blocksOf_pairwise (b : List Char) (t : Nat) :
    List.Pairwise (fun x y => x < y) ((blocksOf b t).map Prod.fst) := by
  unfold blocksOf unknownPos
  rw [List.map_map, List.pairwise_map]
  refine List.Pairwise.imp ?_ (List.Pairwise.filter _ (List.pairwise_lt_range t))
  intro x y hxy
  show (x : Int) < (y : Int)
  omega

theorem blocksOf_length (b : List Char) (t : Nat) :
    (blocksOf b t).length
      = ((Finset.range t).filter (fun j => b[j]? = some unknown)).card := by
  unfold blocksOf unknownPos
  rw [List.length_map]
  rfl

/-- C16: for every reference and target of length `n`, the first scan ends
with the flag `bg` still true and with a block list `v` that holds exactly one
entry `(i, 1)` for each unknown position `i` of `B`, in increasing order of
`i`: every block has length `1`, the starts are strictly increasing, `(i, 1)`
is in `v` exactly when `B[i]` is unknown, and the number of blocks is the
number of unknown positions. -/
theorem C16_literal_blocks (n : Int) (a b : List Char) (ha : (a.length : Int) = n)
    (hb : (b.length : Int) = n) :
    ∃ s, scan n a b = some s ∧ s.bg = true ∧
      s.v = ((List.range n.toNat).filter (fun j => decide (b[j]? = some unknown))).map
        (fun (j : Nat) => ((j : Int), (1 : Int))) ∧
      (∀ blk ∈ s.v, blk.2 = 1) ∧
      (∀ i : Int, (i, (1 : Int)) ∈ s.v ↔ rd b i = some unknown) ∧
      List.Pairwise (fun x y => x < y) (s.v.map Prod.fst) ∧
      s.v.length = ((Finset.range n.toNat).filter (fun j => b[j]? = some unknown)).card := by
  refine ⟨_, scan_eq n a b ha hb, rfl, rfl, blocksOf_snd b n.toNat, ?_,
    blocksOf_pairwise b n.toNat, blocksOf_length b n.toNat⟩
  intro i
  show (i, (1 : Int)) ∈ blocksOf b n.toNat ↔ _
  rw [mem_blocksOf]
  constructor
  · exact fun h => h.2
  · intro h
    have := rd_length_lt _ _ _ h
    exact ⟨by omega, h⟩

theorem C16_literal_blocks_witness :
    ((['a', 'b', 'c', 'd', 'e'] : List Char).length : Int) = 5 ∧
    (([unknown, unknown, 'c', unknown, unknown] : List Char).length : Int) = 5 ∧
    ∃ s, scan 5 ['a', 'b', 'c', 'd', 'e'] [unknown, unknown, 'c', unknown, unknown] = some s ∧
      s.bg = true ∧
      s.v = ((List.range (5 : Int).toNat).filter (fun j =>
          decide (([unknown, unknown, 'c', unknown, unknown] : List Char)[j]? = some unknown))).map
        (fun (j : Nat) => ((j : Int), (1 : Int))) ∧
      (∀ blk ∈ s.v, blk.2 = 1) ∧
      (∀ i : Int, (i, (1 : Int)) ∈ s.v ↔
        rd ([unknown, unknown, 'c', unknown, unknown] : List Char) i = some unknown) ∧
      List.Pairwise (fun x y => x < y) (s.v.map Prod.fst) ∧
      s.v.length = ((Finset.range (5 : Int).toNat).filter (fun j =>
        ([unknown, unknown, 'c', unknown, unknown] : List Char)[j]? = some unknown)).card :=
  ⟨by decide, by decide,
    C16_literal_blocks 5 ['a', 'b', 'c', 'd', 'e'] [unknown, unknown, 'c', unknown, unknown]
      (by decide) (by decide)⟩

/-- C18: on a well-formed test case every stage of `give_input` runs to its end
with every vector access in range (an access out of range makes the stage yield
no result): the two read loops, the first scan with its `score.back()`, the
read `score[n - 1]`, the trailing-run loop with `v.back()`, `score[i - 1]` and
the reads of `f`, and the per-block loop with `v[cnt]`, `score[i - 1]` and the
reads `a[j - i]` of `g`. -/
theorem C18_index_safety (n m : Int) (toks : List Char) (ovr : List (Int × Char))
    (h : WellFormed n m toks ovr) :
    ∃ a b s base t ans, readA n toks = some a ∧ readB n m ovr = some b ∧
      (a.length : Int) = n ∧ (b.length : Int) = n ∧ scan n a b = some s ∧
      rd s.score (n - 1) = some base ∧ trailing n a b s.v s.score base = some t ∧
      perBlock n a b s.v s.score t = some ans ∧ give_input n m toks ovr = some ans := by
  have hwf := h
  obtain ⟨hn, htoks, hovr, hpos⟩ := h
  have hbl : ((target n ovr).length : Int) = n := by rw [target_length]; omega
  exact ⟨toks, target n ovr, _, _, _, _, readA_eq n toks (by omega) htoks,
    readB_eq n m ovr (by omega) hovr hpos, htoks, hbl,
    scan_eq n toks (target n ovr) htoks hbl,
    rd_scoresOf_last toks (target n ovr) n hn,
    trailing_eq n toks (target n ovr) hn htoks hbl _,
    perBlock_eq n toks (target n ovr) htoks hbl _,
    give_input_eq n m toks ovr hwf⟩

theorem C18_index_safety_witness :
    WellFormed 4 2 ['x', 'y', 'p', 'q'] [(3, 'x'), (4, 'y')] ∧
    ∃ a b s base t ans, readA 4 ['x', 'y', 'p', 'q'] = some a ∧
      readB 4 2 [(3, 'x'), (4, 'y')] = some b ∧
      (a.length : Int) = 4 ∧ (b.length : Int) = 4 ∧ scan 4 a b = some s ∧
      rd s.score (4 - 1) = some base ∧ trailing 4 a b s.v s.score base = some t ∧
      perBlock 4 a b s.v s.score t = some ans ∧
      give_input 4 2 ['x', 'y', 'p', 'q'] [(3, 'x'), (4, 'y')] = some ans :=
  ⟨by decide, C18_index_safety 4 2 ['x', 'y', 'p', 'q'] [(3, 'x'), (4, 'y')] (by decide)⟩


/-! ## Claims C14 and C15: the program at the failing inputs -/

/-- C14, the program at a failing input: with `n = 4`, reference `p q x y` and
overrides `(1, x)`, `(2, y)` the target is `[x, y, ?, ?]`, its last position is
unknown and the last free block has length `L = 2`; position `0` is concrete,
`pre(0) = 0` and `f(2, 0) = 2`, but the last entry of `v` is `(3, 1)`, the
program evaluates `f(1, 0) = 0` and prints `0`. -/
theorem C14_trailing_run_at_failing_input :
    WellFormed 4 2 ['p', 'q', 'x', 'y'] [(1, 'x'), (2, 'y')] ∧
    readB 4 2 [(1, 'x'), (2, 'y')] = some ['x', 'y', unknown, unknown] ∧
    rd ['x', 'y', unknown, unknown] (4 - 1) = some unknown ∧
    trailingRun ['x', 'y', unknown, unknown] = 2 ∧
    (scan 4 ['p', 'q', 'x', 'y'] ['x', 'y', unknown, unknown]).map (fun s => s.v.getLast?)
      = some (some (3, 1)) ∧
    (scan 4 ['p', 'q', 'x', 'y'] ['x', 'y', unknown, unknown]).bind (fun s => pre s.score 0)
      = some 0 ∧
    f 4 2 0 ['p', 'q', 'x', 'y'] ['x', 'y', unknown, unknown] = some 2 ∧
    f 4 1 0 ['p', 'q', 'x', 'y'] ['x', 'y', unknown, unknown] = some 0 ∧
    give_input 4 2 ['p', 'q', 'x', 'y'] [(1, 'x'), (2, 'y')] = some 0 := by
  decide

/-- C15, the program at a failing input: with `n = 4`, reference `x y p q` and
overrides `(3, x)`, `(4, y)` the target is `[?, ?, x, y]`, whose free block
starts at `s = 0` and has length `L = 2`, with `s + L < n - 1`; `pre(0) = 0`
and `g(2, 2) = 2`, but `v` is `(0,1), (1,1)`, the program evaluates
`g(1, 1) = 0` and `g(1, 2) = 0` and prints `0`. -/
theorem C15_per_block_at_failing_input :
    WellFormed 4 2 ['x', 'y', 'p', 'q'] [(3, 'x'), (4, 'y')] ∧
    readB 4 2 [(3, 'x'), (4, 'y')] = some [unknown, unknown, 'x', 'y'] ∧
    (0 : Int) + 2 < 4 - 1 ∧
    (scan 4 ['x', 'y', 'p', 'q'] [unknown, unknown, 'x', 'y']).map Scan.v
      = some [(0, 1), (1, 1)] ∧
    (scan 4 ['x', 'y', 'p', 'q'] [unknown, unknown, 'x', 'y']).bind (fun s => pre s.score 0)
      = some 0 ∧
    g 4 2 (0 + 2) ['x', 'y', 'p', 'q'] [unknown, unknown, 'x', 'y'] = some 2 ∧
    g 4 1 (0 + 1) ['x', 'y', 'p', 'q'] [unknown, unknown, 'x', 'y'] = some 0 ∧
    g 4 1 (1 + 1) ['x', 'y', 'p', 'q'] [unknown, unknown, 'x', 'y'] = some 0 ∧
    give_input 4 2 ['x', 'y', 'p', 'q'] [(3, 'x'), (4, 'y')] = some 0 := by
  decide

/-! ## Claim C17: the closed form -/

theorem fSpec_one (n : Int) (a b : List Char) (i : Int) : fSpec n 1 i a b = fwd1 n a b i := by
  unfold fSpec
  rw [Finset.Icc_self, Finset.sup_singleton]
  rfl

theorem gSpec_one (n : Int) (a b : List Char) (i : Int) :
    gSpec n 1 (i + 1) a b = bwd1 n a b i := by
  unfold gSpec
  rw [Finset.Icc_self, Finset.sup_singleton]
  rfl

theorem preOf_scoresOf (a b : List Char) (t : Nat) (i : Int) (h0 : 0 ≤ i) (h1 : i ≤ t) :
    preOf (scoresOf a b t) i = ((agreeBelow a b i : Nat) : Int) := by
  unfold preOf
  by_cases hi : 0 < i
  · rw [if_pos hi, rd_scoresOf a b t (i - 1) (by omega) (by omega)]
    have : i - 1 + 1 = i := by omega
    rw [this]
    rfl
  · have : i = 0 := by omega
    subst this
    simp [agreeBelow_zero]

theorem trailSup_cases (n : Int) (a b : List Char) (hn : 1 ≤ n) :
    trailSup n a b = 0 ∨ (rd b (n - 1) = some unknown ∧ ∃ i, 0 ≤ i ∧ i < n ∧
      rd b i ≠ some unknown ∧ trailSup n a b = agreeBelow a b i + fSpec n 1 i a b) := by
  unfold trailSup
  split
  · rename_i hlast
    obtain ⟨i, hi, he⟩ := Finset.exists_mem_eq_sup (Finset.Ico 0 n)
      ⟨0, Finset.mem_Ico.mpr ⟨le_refl _, by omega⟩⟩ (trailTerm n a b)
    have hi' := Finset.mem_Ico.mp hi
    by_cases hu : rd b i = some unknown
    · left
      rw [he]
      unfold trailTerm
      rw [if_pos hu]
    · right
      refine ⟨hlast, i, hi'.1, hi'.2, hu, ?_⟩
      rw [he]
      unfold trailTerm
      rw [if_neg hu]
  · left; rfl

theorem walkSup_cases (n : Int) (a b : List Char) (hn : 1 ≤ n) :
    walkSup n a b = 0 ∨ ∃ i, 0 ≤ i ∧ i ≤ n - 3 ∧ rd b i = some unknown ∧
      walkSup n a b = agreeBelow a b i + gSpec n 1 (i + 1) a b := by
  unfold walkSup
  obtain ⟨i, hi, he⟩ := Finset.exists_mem_eq_sup (Finset.Ico 0 n)
    ⟨0, Finset.mem_Ico.mpr ⟨le_refl _, by omega⟩⟩ (walkTerm n a b)
  have hi' := Finset.mem_Ico.mp hi
  by_cases hu : rd b i = some unknown ∧ 1 + i < n - 1
  · right
    refine ⟨i, hi'.1, by omega, hu.1, ?_⟩
    rw [he]
    unfold walkTerm
    rw [if_pos hu]
  · left
    rw [he]
    unfold walkTerm
    rw [if_neg hu]

theorem le_trailSup (n : Int) (a b : List Char) (i : Int) (hlast : rd b (n - 1) = some unknown)
    (h0 : 0 ≤ i) (h1 : i < n) (hu : rd b i ≠ some unknown) :
    agreeBelow a b i + fSpec n 1 i a b ≤ trailSup n a b := by
  unfold trailSup
  rw [if_pos hlast]
  have hmem : i ∈ Finset.Ico 0 n := Finset.mem_Ico.mpr ⟨h0, h1⟩
  have h := Finset.le_sup (f := trailTerm n a b) hmem
  unfold trailTerm at h
  rw [if_neg hu] at h
  exact h

theorem le_walkSup (n : Int) (a b : List Char) (i : Int) (h0 : 0 ≤ i) (h1 : i ≤ n - 3)
    (hu : rd b i = some unknown) :
    agreeBelow a b i + gSpec n 1 (i + 1) a b ≤ walkSup n a b := by
  unfold walkSup
  have hmem : i ∈ Finset.Ico 0 n := Finset.mem_Ico.mpr ⟨h0, by omega⟩
  have h := Finset.le_sup (f := walkTerm n a b) hmem
  unfold walkTerm at h
  rw [if_pos ⟨hu, by omega⟩] at h
  exact h

theorem answer_mem_candidates (n : Int) (a b : List Char) (hn : 1 ≤ n) :
    ((answer n a b : Nat) : Int) ∈ candidates n a b (scoresOf a b n.toNat) := by
  have hbase := rd_scoresOf_last a b n hn
  have hT := trailSup_cases n a b hn
  have hW := walkSup_cases n a b hn
  unfold candidates
  rw [hbase]
  simp only [Option.getD_some, Finset.mem_union, Finset.mem_singleton]
  by_cases hA : answer n a b = agreeBelow a b n
  · left; left; rw [hA]
  · have hmax : answer n a b = trailSup n a b ∨ answer n a b = walkSup n a b := by
      unfold answer at hA ⊢
      omega
    rcases hmax with hm | hm
    · rcases hT with h0 | ⟨hlast, i, hi0, hi1, hu, he⟩
      · exfalso; unfold answer at hA hm; omega
      · left; right
        rw [if_pos hlast, Finset.mem_image]
        refine ⟨i, Finset.mem_filter.mpr ⟨Finset.mem_Ico.mpr ⟨hi0, hi1⟩, hu⟩, ?_⟩
        rw [preOf_scoresOf a b n.toNat i hi0 (by omega), hm, he, fSpec_one]
        push_cast
        rfl
    · rcases hW with h0 | ⟨i, hi0, hi1, hu, he⟩
      · exfalso; unfold answer at hA hm; omega
      · right
        rw [Finset.mem_image]
        refine ⟨i, Finset.mem_filter.mpr ⟨Finset.mem_Icc.mpr ⟨hi0, hi1⟩, hu⟩, ?_⟩
        rw [preOf_scoresOf a b n.toNat i hi0 (by omega), hm, he, gSpec_one]
        push_cast
        rfl

theorem candidates_le_answer (n : Int) (a b : List Char) (hn : 1 ≤ n) (c : Int)
    (hc : c ∈ candidates n a b (scoresOf a b n.toNat)) : c ≤ ((answer n a b : Nat) : Int) := by
  have hbase := rd_scoresOf_last a b n hn
  unfold candidates at hc
  rw [hbase] at hc
  simp only [Option.getD_some, Finset.mem_union, Finset.mem_singleton] at hc
  rcases hc with (hc | hc) | hc
  · rw [hc]
    exact_mod_cast agreeBelow_le_answer n a b
  · split at hc
    · rename_i hlast
      obtain ⟨i, hi, rfl⟩ := Finset.mem_image.mp hc
      obtain ⟨hi1, hu⟩ := Finset.mem_filter.mp hi
      obtain ⟨hi0, hi1⟩ := Finset.mem_Ico.mp hi1
      rw [preOf_scoresOf a b n.toNat i hi0 (by omega), ← fSpec_one]
      have h1 := le_trailSup n a b i hlast hi0 hi1 hu
      have h2 : trailSup n a b ≤ answer n a b := by unfold answer; omega
      exact_mod_cast h1.trans h2
    · simp at hc
  · obtain ⟨i, hi, rfl⟩ := Finset.mem_image.mp hc
    obtain ⟨hi1, hu⟩ := Finset.mem_filter.mp hi
    obtain ⟨hi0, hi1⟩ := Finset.mem_Icc.mp hi1
    rw [preOf_scoresOf a b n.toNat i hi0 (by omega), ← gSpec_one]
    have h1 := le_walkSup n a b i hi0 hi1 hu
    have h2 : walkSup n a b ≤ answer n a b := by unfold answer; omega
    exact_mod_cast h1.trans h2

/-- C17: on a well-formed test case the answer printed by `give_input` is the
maximum of the candidate values: it is one of them and no candidate exceeds it.
The candidates are `score[n - 1]`; only when `B[n - 1]` is unknown, for every
concrete position `i`, `pre(i)` plus the number of `j` in `[i, n - 1)` with
`B[j] = A[j + 1]`; and for every unknown position `i ≤ n - 3`, `pre(i)` plus the
number of `j` in `[i + 1, n)` with `B[j] = A[j - 1]`. -/
theorem C17_closed_form (n m : Int) (toks : List Char) (ovr : List (Int × Char))
    (h : WellFormed n m toks ovr) :
    ∃ a b s ans, readA n toks = some a ∧ readB n m ovr = some b ∧ scan n a b = some s ∧
      give_input n m toks ovr = some ans ∧
      ans ∈ candidates n a b s.score ∧ ∀ c ∈ candidates n a b s.score, c ≤ ans := by
  have hwf := h
  obtain ⟨hn, htoks, hovr, hpos⟩ := h
  have hbl : ((target n ovr).length : Int) = n := by rw [target_length]; omega
  exact ⟨toks, target n ovr, _, _, readA_eq n toks (by omega) htoks,
    readB_eq n m ovr (by omega) hovr hpos, scan_eq n toks (target n ovr) htoks hbl,
    give_input_eq n m toks ovr hwf,
    answer_mem_candidates n toks (target n ovr) hn,
    candidates_le_answer n toks (target n ovr) hn⟩

theorem C17_closed_form_witness :
    WellFormed 3 3 ['x', 'y', 'z'] [(1, '0'), (2, 'x'), (3, 'y')] ∧
    ∃ a b s ans, readA 3 ['x', 'y', 'z'] = some a ∧
      readB 3 3 [(1, '0'), (2, 'x'), (3, 'y')] = some b ∧ scan 3 a b = some s ∧
      give_input 3 3 ['x', 'y', 'z'] [(1, '0'), (2, 'x'), (3, 'y')] = some ans ∧
      ans ∈ candidates 3 a b s.score ∧ ∀ c ∈ candidates 3 a b s.score, c ≤ ans :=
  ⟨by decide, C17_closed_form 3 3 ['x', 'y', 'z'] [(1, '0'), (2, 'x'), (3, 'y')] (by decide)⟩

/-! ## The shift correlator on machine integers meets its specification -/

theorem MAX64_eq : MAX64 = 9223372036854775807 := by decide

theorem MIN64_eq : MIN64 = -9223372036854775808 := by decide

theorem chk64_eq (x : Int) (h0 : MIN64 ≤ x) (h1 : x ≤ MAX64) : chk64 x = some x := by
  unfold chk64
  rw [if_pos ⟨h0, h1⟩]

theorem chk64_none (x : Int) (h : MAX64 < x) : chk64 x = none := by
  unfold chk64
  rw [if_neg (by omega)]

/-- Hoare rule for `for64Aux`: when the loop condition is `i < hi` on the
values the counter takes, the counter stays in the range of the type and the
allowance covers the iterations left, an invariant preserved by every
iteration holds of the final state, and the loop returns. -/
theorem for64Aux_inv {σ : Type} (Inv : Nat → σ → Prop) (lo hi : Int)
    (cond : Int → Option Bool) (body : Int → σ → Option σ)
    (hc : ∀ i, lo ≤ i → i ≤ max lo hi → cond i = some (decide (i < hi)))
    (hlo : MIN64 ≤ lo) (hhi : hi ≤ MAX64)
    (hstep : ∀ (t : Nat) (s : σ), (t : Int) < hi - lo → Inv t s →
      ∃ s', body (lo + (t : Int)) s = some s' ∧ Inv (t + 1) s') :
    ∀ (fuel t : Nat) (s : σ), (hi - lo).toNat - t < fuel → t ≤ (hi - lo).toNat → Inv t s →
      ∃ s', for64Aux cond body fuel (lo + (t : Int)) s = some s' ∧
        Inv (hi - lo).toNat s' := by
  intro fuel
  induction fuel with
  | zero => intro t s h; omega
  | succ fuel ih =>
    intro t s hf ht hI
    rw [for64Aux, hc (lo + t) (by omega) (by omega)]
    simp only [Option.some_bind, Option.bind_eq_bind]
    by_cases hlt : lo + (t : Int) < hi
    · obtain ⟨s1, hs1, hI1⟩ := hstep t s (by omega) hI
      have hch : chk64 (lo + (t : Int) + 1) = some (lo + (t : Int) + 1) :=
        chk64_eq _ (by omega) (by omega)
      rw [decide_eq_true hlt, if_pos rfl, hs1, hch]
      simp only [Option.some_bind, Option.bind_eq_bind]
      have e : lo + (t : Int) + 1 = lo + ((t + 1 : Nat) : Int) := by push_cast; ring
      rw [e]
      exact ih (t + 1) s1 (by omega) (by omega) hI1
    · have ht' : t = (hi - lo).toNat := by omega
      rw [decide_eq_false hlt]
      exact ⟨s, by simp, ht' ▸ hI⟩

theorem for64_inv {σ : Type} (Inv : Nat → σ → Prop) (lo hi : Int)
    (cond : Int → Option Bool) (body : Int → σ → Option σ) (s0 : σ)
    (hc : ∀ i, lo ≤ i → i ≤ max lo hi → cond i = some (decide (i < hi)))
    (hlo : MIN64 ≤ lo) (hhi : hi ≤ MAX64) (h0 : Inv 0 s0)
    (hstep : ∀ (t : Nat) (s : σ), (t : Int) < hi - lo → Inv t s →
      ∃ s', body (lo + (t : Int)) s = some s' ∧ Inv (t + 1) s') :
    ∃ s, for64 cond body lo s0 = some s ∧ Inv (hi - lo).toNat s := by
  have h := for64Aux_inv Inv lo hi cond body hc hlo hhi hstep (2 ^ 64) 0 s0
    (by rw [MIN64_eq] at hlo; rw [MAX64_eq] at hhi; omega) (by omega) h0
  simpa [for64] using h

/-- A `long long` loop from `lo ≥ 0` that adds `(int)(p j)` at every index
counts the indices of its range satisfying `p`. -/
theorem for64_count (lo hi : Int) (cond : Int → Option Bool)
    (body : Int → Int → Option Int) (p : Int → Bool)
    (hc : ∀ i, lo ≤ i → i ≤ max lo hi → cond i = some (decide (i < hi)))
    (hlo : 0 ≤ lo) (hhi : hi ≤ MAX64)
    (h : ∀ j s, lo ≤ j → j < hi → body j s = chk64 (s + boolToInt (p j))) :
    for64 cond body lo 0
      = some ((((Finset.Ico lo hi).filter (fun j => p j = true)).card : Nat) : Int) := by
  obtain ⟨s, hs, hI⟩ := for64_inv
    (fun t s => s = ((((Finset.Ico lo (lo + t)).filter (fun j => p j = true)).card : Nat) : Int))
    lo hi cond body 0 hc (by rw [MIN64_eq]; omega) hhi (by simp) (by
      intro t s ht hI
      have hnext : ((((Finset.Ico lo (lo + ((t + 1 : Nat) : Int))).filter
          (fun j => p j = true)).card : Nat) : Int) = s + boolToInt (p (lo + t)) := by
        rw [hI, Ico_succ_insert, Finset.filter_insert]
        by_cases hp : p (lo + t) = true
        · rw [if_pos hp, Finset.card_insert_of_not_mem (by simp)]
          simp [boolToInt, hp]
        · rw [if_neg hp]
          simp [boolToInt, hp]
      have hle : (Finset.filter (fun j => p j = true)
          (Finset.Ico lo (lo + ((t + 1 : Nat) : Int)))).card ≤ t + 1 := by
        refine (Finset.card_filter_le _ _).trans ?_
        simp
      refine ⟨s + boolToInt (p (lo + t)), ?_, hnext.symm⟩
      rw [h (lo + t) s (by omega) (by omega)]
      exact chk64_eq _ (by rw [MIN64_eq]; omega) (by rw [MAX64_eq] at hhi ⊢; omega))
  rw [hs, hI, Ico_toNat]

/-- A `long long` loop that replaces its state by the maximum with a natural
number `c i` at every index computes the supremum of `c` over its range. -/
theorem for64_sup (lo hi : Int) (cond : Int → Option Bool)
    (body : Int → Int → Option Int) (c : Int → Nat)
    (hc : ∀ i, lo ≤ i → i ≤ max lo hi → cond i = some (decide (i < hi)))
    (hlo : MIN64 ≤ lo) (hhi : hi ≤ MAX64)
    (h : ∀ i (r : Nat), lo ≤ i → i < hi → body i (r : Int) = some ((max r (c i) : Nat) : Int))
    (r0 : Nat) :
    for64 cond body lo (r0 : Int)
      = some ((max r0 ((Finset.Ico lo hi).sup c) : Nat) : Int) := by
  obtain ⟨s, hs, hI⟩ := for64_inv
    (fun t s => s = ((max r0 ((Finset.Ico lo (lo + t)).sup c) : Nat) : Int))
    lo hi cond body (r0 : Int) hc hlo hhi (by simp) (by
      intro t s ht hI
      refine ⟨_, hI ▸ h (lo + t) _ (by omega) (by omega), ?_⟩
      show _ = ((max r0 ((Finset.Ico lo (lo + ((t + 1 : Nat) : Int))).sup c) : Nat) : Int)
      rw [Ico_succ_insert, Finset.sup_insert]
      congr 1
      omega)
  rw [hs, hI, Ico_toNat]

theorem f64_eq_fSpec {α : Type} [DecidableEq α] (n k idx : Int) (a b : List α)
    (ha : (a.length : Int) = n) (hb : (b.length : Int) = n) (hn : n ≤ MAX64)
    (hidx : 0 ≤ idx) (hk : k < 1 ∨ (k < MAX64 ∧ idx + k ≤ MAX64)) :
    f64 n k idx a b = some ((fSpec n k idx a b : Nat) : Int) := by
  unfold f64
  refine Eq.trans (for64_sup 1 (k + 1) _ _ (fun i => fwdCount n i idx a b) ?_ ?_ ?_ ?_ 0) ?_
  · intro i _ _
    simp only [Option.some.injEq, decide_eq_decide]
    omega
  · rw [MIN64_eq]; omega
  · rw [MAX64_eq] at hk ⊢; omega
  · intro i r h1 h2
    have hik : idx + i ≤ MAX64 := by rw [MAX64_eq] at hk ⊢; omega
    simp only []
    rw [for64_count idx (n - i) _ _ (fun j => agree b j a (j + i)) (by
        intro j hj1 hj2
        rw [chk64_eq (j + i) (by rw [MIN64_eq]; omega) (by rw [MAX64_eq] at hn hik ⊢; omega)]
        simp only [Option.some_bind, Option.bind_eq_bind, Option.some.injEq, decide_eq_decide]
        omega) hidx (by rw [MAX64_eq] at hn ⊢; omega) (by
        intro j s hj1 hj2
        obtain ⟨x, hx⟩ := rd_isSome b j (by omega) (by omega)
        obtain ⟨y, hy⟩ := rd_isSome a (j + i) (by omega) (by omega)
        rw [chk64_eq (j + i) (by rw [MIN64_eq]; omega) (by rw [MAX64_eq] at hn ⊢; omega)]
        simp [agree, hx, hy])]
    simp [fwdCount]
  · rw [Ico_one_succ]
    simp [fSpec]

theorem g64_eq_gSpec {α : Type} [DecidableEq α] (n k idx : Int) (a b : List α)
    (ha : (a.length : Int) = n) (hb : (b.length : Int) = n) (hn : n ≤ MAX64)
    (hidx : k ≤ idx) (hk : k < MAX64) :
    g64 n k idx a b = some ((gSpec n k idx a b : Nat) : Int) := by
  unfold g64
  refine Eq.trans (for64_sup 1 (k + 1) _ _ (fun i => bwdCount n i idx a b) ?_ ?_ ?_ ?_ 0) ?_
  · intro i _ _
    simp only [Option.some.injEq, decide_eq_decide]
    omega
  · rw [MIN64_eq]; omega
  · rw [MAX64_eq] at hk ⊢; omega
  · intro i r h1 h2
    simp only []
    rw [for64_count idx n _ _ (fun j => agree b j a (j - i)) (by
        intro j _ _
        rfl) (by omega) hn (by
        intro j s hj1 hj2
        obtain ⟨x, hx⟩ := rd_isSome b j (by omega) (by omega)
        obtain ⟨y, hy⟩ := rd_isSome a (j - i) (by omega) (by omega)
        rw [chk64_eq (j - i) (by rw [MIN64_eq]; omega) (by rw [MAX64_eq] at hn ⊢; omega)]
        simp [agree, hx, hy])]
    simp [bwdCount]
  · rw [Ico_one_succ]
    simp [gSpec]

/-- From any counter value in `[1, LLONG_MAX]` the outer loop of `g` with
`k = LLONG_MAX` on empty vectors does not return: its condition `i <= k` holds
at every value and the increment at `LLONG_MAX` leaves the range. -/
theorem g64_outer_overflow (fuel : Nat) (i res : Int) (h1 : 1 ≤ i) (h2 : i ≤ MAX64) :
    for64Aux (fun i => some (decide (i ≤ MAX64))) (fun i res => do
      let sum ← for64 (fun j => some (decide (j < 0))) (fun j sum => do
        let bj ← rd ([] : List Char) j
        let t ← chk64 (j - i)
        let aji ← rd ([] : List Char) t
        chk64 (sum + boolToInt (decide (bj = aji)))) MAX64 0
      pure (max res sum)) fuel i res = none := by
  induction fuel generalizing i res with
  | zero => rfl
  | succ fuel ih =>
    rw [for64Aux]
    have hin : for64 (fun j => some (decide (j < 0))) (fun j sum => do
        let bj ← rd ([] : List Char) j
        let t ← chk64 (j - i)
        let aji ← rd ([] : List Char) t
        chk64 (sum + boolToInt (decide (bj = aji)))) MAX64 0 = some 0 := by
      unfold for64
      rw [show (2 : Nat) ^ 64 = 18446744073709551615 + 1 from rfl, for64Aux]
      rfl
    simp only [Option.some_bind, Option.bind_eq_bind, decide_eq_true h2, if_true, hin,
      Option.pure_def]
    by_cases hi : i = MAX64
    · rw [chk64_none (i + 1) (by omega)]
      rfl
    · rw [chk64_eq (i + 1) (by rw [MIN64_eq]; omega) (by omega)]
      simp only [Option.some_bind]
      exact ih (i + 1) _ (by omega) (by omega)

theorem f64_eq_f {α : Type} [DecidableEq α] (n k idx : Int) (a b : List α)
    (ha : (a.length : Int) = n) (hb : (b.length : Int) = n) (hn : n ≤ MAX64)
    (hidx : 0 ≤ idx) (hk : k < 1 ∨ (k < MAX64 ∧ idx + k ≤ MAX64)) :
    f64 n k idx a b = f n k idx a b := by
  rw [f64_eq_fSpec n k idx a b ha hb hn hidx hk, f_eq_fSpec n k idx a b ha hb hidx]

theorem g64_eq_g {α : Type} [DecidableEq α] (n k idx : Int) (a b : List α)
    (ha : (a.length : Int) = n) (hb : (b.length : Int) = n) (hn : n ≤ MAX64)
    (hidx : k ≤ idx) (hk : k < MAX64) :
    g64 n k idx a b = g n k idx a b := by
  rw [g64_eq_gSpec n k idx a b ha hb hn hidx hk, g_eq_gSpec n k idx a b ha hb hidx]

/-! ## Claims C7 and C8 -/

/-- C7, refuted as stated: with `A = B = [a]`, `n = 1`, `k = 1` and
`idx = LLONG_MAX ≥ 0` the first evaluation of the inner loop condition
`j + i < n` computes `LLONG_MAX + 1`, which overflows: `f` returns no value,
where the claim says `0`. -/
theorem C7_counterexample :
    ((['a'] : List Char).length : Int) = 1 ∧ (0 : Int) ≤ MAX64 ∧
      f64 1 1 MAX64 ['a'] ['a'] = none := by
  decide

/-- C7, amended: for `A` and `B` of length `n ≤ LLONG_MAX`, `idx ≥ 0` and `k`
such that `k < 1`, or `k < LLONG_MAX` and `idx + k ≤ LLONG_MAX` (neither `++i`
nor `j + i` overflows), the forward correlation `f(k, idx, A, B)` on
`long long` returns the maximum over the shifts `i` in `[1, k]` of the number of
positions `j` in `[idx, n - i)` with `B[j] = A[j + i]`; it returns `0` when
`k < 1` or when every such range is empty. -/
theorem C7_forward_correlation {α : Type} [DecidableEq α] (n k idx : Int) (a b : List α)
    (ha : (a.length : Int) = n) (hb : (b.length : Int) = n) (hn : n ≤ MAX64)
    (hidx : 0 ≤ idx) (hk : k < 1 ∨ (k < MAX64 ∧ idx + k ≤ MAX64)) :
    f64 n k idx a b = some ((fSpec n k idx a b : Nat) : Int) ∧
      ((k < 1 ∨ n - 1 ≤ idx) → f64 n k idx a b = some 0) := by
  refine ⟨f64_eq_fSpec n k idx a b ha hb hn hidx hk, ?_⟩
  intro h
  rw [f64_eq_fSpec n k idx a b ha hb hn hidx hk]
  rcases h with h | h
  · unfold fSpec
    rw [Finset.Icc_eq_empty (by omega)]
    rfl
  · have := fSpec_le n k idx a b
    congr 1
    omega

theorem C7_forward_correlation_witness :
    ((['a', 'b', 'a', 'b'] : List Char).length : Int) = 4 ∧
    ((['b', 'a', 'b', '0'] : List Char).length : Int) = 4 ∧ (4 : Int) ≤ MAX64 ∧
    (0 : Int) ≤ 0 ∧ ((2 : Int) < 1 ∨ ((2 : Int) < MAX64 ∧ (0 : Int) + 2 ≤ MAX64)) ∧
    (f64 4 2 0 ['a', 'b', 'a', 'b'] ['b', 'a', 'b', '0']
        = some ((fSpec 4 2 0 ['a', 'b', 'a', 'b'] ['b', 'a', 'b', '0'] : Nat) : Int) ∧
      (((2 : Int) < 1 ∨ (4 : Int) - 1 ≤ 0) →
        f64 4 2 0 ['a', 'b', 'a', 'b'] ['b', 'a', 'b', '0'] = some 0)) :=
  ⟨by decide, by decide, by decide, by decide, by decide,
    C7_forward_correlation 4 2 0 ['a', 'b', 'a', 'b'] ['b', 'a', 'b', '0'] (by decide)
      (by decide) (by decide) (by decide) (by decide)⟩

/-- C8, refuted as stated: with empty `A` and `B`, `n = 0` and
`k = idx = LLONG_MAX` (so `idx ≥ k`) the outer loop condition `i <= k` holds at
every value of `i`, and the increment `++i` at `LLONG_MAX` overflows: `g`
returns no value, where the claim says `0`.  The loop fails whatever number of
iterations it is allowed (`g64_outer_overflow`). -/
theorem C8_counterexample :
    (([] : List Char).length : Int) = 0 ∧ MAX64 ≤ MAX64 ∧
      g64 0 MAX64 MAX64 ([] : List Char) [] = none :=
  ⟨rfl, le_refl _, g64_outer_overflow (2 ^ 64) 1 0 (by decide) (by decide)⟩

/-- C8, amended: for `A` and `B` of length `n ≤ LLONG_MAX` and `k`, `idx` with
`idx ≥ k` and `k < LLONG_MAX` (the increment `++i` does not overflow), the
backward correlation `g(k, idx, A, B)` on `long long` returns the maximum over
the shifts `i` in `[1, k]` of the number of positions `j` in `[idx, n)` with
`B[j] = A[j - i]`; it returns `0` when `k < 1` or `idx ≥ n`. -/
theorem C8_backward_correlation {α : Type} [DecidableEq α] (n k idx : Int) (a b : List α)
    (ha : (a.length : Int) = n) (hb : (b.length : Int) = n) (hn : n ≤ MAX64)
    (hidx : k ≤ idx) (hk : k < MAX64) :
    g64 n k idx a b = some ((gSpec n k idx a b : Nat) : Int) ∧
      ((k < 1 ∨ n ≤ idx) → g64 n k idx a b = some 0) := by
  refine ⟨g64_eq_gSpec n k idx a b ha hb hn hidx hk, ?_⟩
  intro h
  rw [g64_eq_gSpec n k idx a b ha hb hn hidx hk]
  rcases h with h | h
  · unfold gSpec
    rw [Finset.Icc_eq_empty (by omega)]
    rfl
  · have := gSpec_le n k idx a b
    congr 1
    omega

theorem C8_backward_correlation_witness :
    ((['a', 'b', 'a', 'b'] : List Char).length : Int) = 4 ∧
    ((['0', '0', 'a', 'b'] : List Char).length : Int) = 4 ∧ (4 : Int) ≤ MAX64 ∧
    (2 : Int) ≤ 2 ∧ (2 : Int) < MAX64 ∧
    (g64 4 2 2 ['a', 'b', 'a', 'b'] ['0', '0', 'a', 'b']
        = some ((gSpec 4 2 2 ['a', 'b', 'a', 'b'] ['0', '0', 'a', 'b'] : Nat) : Int) ∧
      (((2 : Int) < 1 ∨ (4 : Int) ≤ 2) →
        g64 4 2 2 ['a', 'b', 'a', 'b'] ['0', '0', 'a', 'b'] = some 0)) :=
  ⟨by decide, by decide, by decide, by decide, by decide,
    C8_backward_correlation 4 2 2 ['a', 'b', 'a', 'b'] ['0', '0', 'a', 'b'] (by decide)
      (by decide) (by decide) (by decide) (by decide)⟩

end Elmosyar
